import Mathlib

/-!
# Verification of the spike detection core (`src/spike_detector.py`)

Shallow embedding of the spike detection engine of this repository:

* `detect_spikes_in_signal`  — RMS-thresholded candidate detection
  (`SpikeDetector.detect_spikes_in_signal`, lines 23–102);
* `filter_spikes_iterative_refractory` — the greedy refractory filter
  (`SpikeDetector._filter_spikes_iterative_refractory`, lines 104–148);
* `extract_spike_waveforms` — bounded waveform extraction (lines 267–316);
* `process_one_sample` / `process_all_samples` — the per-subject
  orchestration loop (lines 150–232).

Signals are sequences of rational samples (`List ℚ`); Python floats are
modelled as exact rationals.  The source computes
`threshold_value = -n_rms_multiplier * sqrt(mean(signal**2))`, a real number
that is irrational for general rational signals; we therefore pass
`threshold_value` itself as a parameter (theorems quantify over it, which
covers the source's value), and we embed the `rms_signal == 0` guard as
`mean_square signal = 0`, which over the reals is equivalent
(`√x = 0 ↔ x = 0` for `x ≥ 0`).
-/

/-- One detected spike, as built at `src/spike_detector.py:83-87`:
the Python dict `{"time_s": …, "amplitude_mv": …, "index": …}`, to which the
orchestrator may later attach a `"waveform"` entry (line 213). -/
structure Spike where
  time_s : ℚ
  amplitude_mv : ℚ
  index : ℕ
  waveform : Option (List ℚ) := none
deriving DecidableEq

/-- `np.mean(signal**2)` (line 47 computes `rms_signal = sqrt` of this).
For the empty list this is `0/0 = 0` in `ℚ`; the source never evaluates the
mean of an empty signal (the `signal.size == 0` guard at line 37 comes first). -/
def mean_square (signal : List ℚ) : ℚ :=
  ((signal.map (fun x => x ^ 2)).sum) / (signal.length : ℚ)

/-- `supra_threshold_mask = signal < threshold_value` (line 55). -/
def supra_threshold_mask (signal : List ℚ) (threshold_value : ℚ) : List Bool :=
  signal.map (fun x => decide (x < threshold_value))

/-- `np.concatenate(([False], supra_threshold_mask, [False])).astype(int)` (line 63). -/
def padded_mask (mask : List Bool) : List ℤ :=
  ((false :: mask) ++ [false]).map (fun b => if b then 1 else 0)

/-- `np.diff l`: successive differences `l[i+1] - l[i]`. -/
def np_diff (l : List ℤ) : List ℤ :=
  (l.zip l.tail).map (fun p => p.2 - p.1)

/-- `diff_mask` of line 63. -/
def diff_mask (mask : List Bool) : List ℤ :=
  np_diff (padded_mask mask)

/-- `np.where(l == c)[0]`: the (increasing) list of positions holding `c`. -/
def np_where_eq (l : List ℤ) (c : ℤ) : List ℕ :=
  (List.range l.length).filter (fun i => l.getD i 0 == c)

/-- `segment_starts = np.where(diff_mask == 1)[0]` (line 65). -/
def segment_starts (mask : List Bool) : List ℕ :=
  np_where_eq (diff_mask mask) 1

/-- `segment_ends = np.where(diff_mask == -1)[0]` (line 67); each end is
exclusive, the first index after its segment. -/
def segment_ends (mask : List Bool) : List ℕ :=
  np_where_eq (diff_mask mask) (-1)

/-- `np.argmin`: index of the first occurrence of the minimum (line 77). -/
def argminIdx : List ℚ → ℕ
  | [] => 0
  | x :: xs => if xs.all (fun y => decide (x ≤ y)) then 0 else argminIdx xs + 1

/-- `segment_values = signal[start_idx:end_idx]` (line 70). -/
def segment_values (signal : List ℚ) (se : ℕ × ℕ) : List ℚ :=
  (signal.drop se.1).take (se.2 - se.1)

/-- The body of the loop at lines 69–87: skip an empty segment (line 73),
otherwise reduce the segment to the spike at its first-minimum sample.
`peak_original_idx = segment_indices[peak_idx_in_segment] = start + argmin`. -/
def segment_spike (signal : List ℚ) (sampling_rate : ℚ) (se : ℕ × ℕ) : Option Spike :=
  let vals := segment_values signal se
  if vals.length = 0 then none
  else
    let k := argminIdx vals
    some { time_s := ((se.1 + k : ℕ) : ℚ) / sampling_rate
         , amplitude_mv := vals.getD k 0
         , index := se.1 + k
         , waveform := none }

/-- `detected_spikes` accumulated by the loop at lines 69–87. -/
def detected_spikes_of_mask (signal : List ℚ) (sampling_rate : ℚ) (mask : List Bool) :
    List Spike :=
  ((segment_starts mask).zip (segment_ends mask)).filterMap
    (segment_spike signal sampling_rate)

/-- Comparison used by `detected_spikes.sort(key=lambda x: x["time_s"])`
(line 90); Python's sort is stable, as is `List.mergeSort`. -/
def spike_le (a b : Spike) : Bool :=
  decide (a.time_s ≤ b.time_s)

/-- `ref_before_s = 0.001` (line 94). -/
def ref_before_s : ℚ := 1 / 1000

/-- `ref_after_s = 0.002` (line 95). -/
def ref_after_s : ℚ := 2 / 1000

/-- One iteration of the loop at lines 126–141: state is
`(validated_spikes, active_windows)`.  A spike shadowed by any active window
(inclusive bounds, line 132) is dropped; otherwise it is appended and its own
window `[t - before_s, t + after_s]` is added. -/
def refractory_step (before_s after_s : ℚ) (st : List Spike × List (ℚ × ℚ))
    (sp : Spike) : List Spike × List (ℚ × ℚ) :=
  if st.2.any (fun w => decide (w.1 ≤ sp.time_s) && decide (sp.time_s ≤ w.2)) then st
  else (st.1 ++ [sp], st.2 ++ [(sp.time_s - before_s, sp.time_s + after_s)])

/-- `SpikeDetector._filter_spikes_iterative_refractory` (lines 104–148).
The source's early `return []` for an empty input coincides with folding from
the empty state. -/
def filter_spikes_iterative_refractory (initial_spikes_sorted : List Spike)
    (before_s after_s : ℚ) : List Spike :=
  (initial_spikes_sorted.foldl (refractory_step before_s after_s) ([], [])).1

/-- `SpikeDetector.detect_spikes_in_signal` (lines 23–102), returning the pair
`(raw_detected, refractory_filtered)`.  `threshold_value` stands for the
source's `-n_rms_multiplier * rms_signal` (line 52), and the `rms_signal == 0`
guard (line 49) is `mean_square signal = 0` (see the file comment).  The 0-d /
`ravel` reshaping of lines 40–45 is inherent in the `List` representation. -/
def detect_spikes_in_signal (signal : List ℚ) (threshold_value sampling_rate : ℚ) :
    List Spike × List Spike :=
  if signal.length = 0 then ([], [])
  else if mean_square signal = 0 then ([], [])
  else if (supra_threshold_mask signal threshold_value).any (fun b => b) = false then ([], [])
  else
    ((detected_spikes_of_mask signal sampling_rate
        (supra_threshold_mask signal threshold_value)).mergeSort spike_le,
      filter_spikes_iterative_refractory
        ((detected_spikes_of_mask signal sampling_rate
          (supra_threshold_mask signal threshold_value)).mergeSort spike_le)
        ref_before_s ref_after_s)

/-- Result record of `extract_spike_waveforms` (lines 312–316). -/
structure WaveformsData where
  waveforms : List (List ℚ)
  time_axis : List ℚ
  spike_indices : List ℕ
deriving DecidableEq

/-- `int(ms * sampling_rate / 1000)` (lines 291–292); for the nonnegative
window parameters and sampling rates the system uses, Python's `int`
truncation equals the floor, and the result is a nonnegative count. -/
def samples_count (ms sampling_rate : ℚ) : ℕ :=
  (⌊ms * sampling_rate / 1000⌋).toNat

/-- `signal[spike_idx - samples_before : spike_idx + samples_after + 1]` (line 308). -/
def waveform_slice (signal : List ℚ) (samples_before samples_after idx : ℕ) : List ℚ :=
  (signal.drop (idx - samples_before)).take (samples_before + samples_after + 1)

/-- The bound check of line 306:
`spike_idx >= samples_before and spike_idx + samples_after < signal_length`. -/
def waveform_in_bounds (signal : List ℚ) (samples_before samples_after idx : ℕ) : Bool :=
  decide (samples_before ≤ idx) && decide (idx + samples_after < signal.length)

/-- `SpikeDetector.extract_spike_waveforms` (lines 267–316).  The source's
single loop appends a spike's waveform and its index together exactly when the
bound check passes, which is the `filter`-then-`map` below.
`time_axis = np.arange(-samples_before, samples_after + 1) * 1000 / sampling_rate`
(line 300). -/
def extract_spike_waveforms (signal : List ℚ) (spike_times_list : List Spike)
    (before_ms after_ms sampling_rate : ℚ) : WaveformsData :=
  let samples_before := samples_count before_ms sampling_rate
  let samples_after := samples_count after_ms sampling_rate
  let kept := spike_times_list.filter
    (fun sp => waveform_in_bounds signal samples_before samples_after sp.index)
  { waveforms := kept.map (fun sp => waveform_slice signal samples_before samples_after sp.index)
  , time_axis := (List.range (samples_before + samples_after + 1)).map
      (fun (j : ℕ) => ((j : ℚ) - (samples_before : ℚ)) * 1000 / sampling_rate)
  , spike_indices := kept.map (fun sp => sp.index) }

/-- The waveform re-association loop of `process_all_samples` (lines 206–217):
a spike whose `index` occurs in `spike_indices` receives the waveform stored at
the first position of that index (`list.index`, line 211); any other spike is
kept unchanged. -/
def attach_waveforms (spikes : List Spike) (wd : WaveformsData) : List Spike :=
  spikes.map (fun spike =>
    if spike.index ∈ wd.spike_indices then
      { spike with waveform := some (wd.waveforms.getD (wd.spike_indices.indexOf spike.index) []) }
    else spike)

/-- One `sample_data` record: the two optional signal arrays consulted at
lines 173–183 (`None` models both an absent key and a `None` value). -/
structure SampleData where
  filtered_signal : Option (List ℚ)
  signal_mv : Option (List ℚ)
deriving DecidableEq

/-- What `process_all_samples` writes back into one sample record
(lines 188–189, 220–230), together with `warned`, which records whether the
branch prints a `Warning:` line. `spike_waveform_metadata` keeps the time axis
(`none` models both the key set to `None` at line 230 and the key left absent
at lines 188–190). -/
structure SampleResult where
  spikes_raw_detected : List Spike
  spikes_refractory_filtered : List Spike
  spike_waveform_metadata : Option (List ℚ)
  warned : Bool
deriving DecidableEq

/-- A signal array that is present and non-empty (lines 175–177 / 180–182). -/
def nonempty_signal (o : Option (List ℚ)) : Option (List ℚ) :=
  match o with
  | some l => if 0 < l.length then some l else none
  | none => none

/-- `signal_to_process` selection of lines 173–183: prefer `filtered_signal`
when present and non-empty, else fall back to `signal_mv`. -/
def select_signal (sd : SampleData) : Option (List ℚ) :=
  match nonempty_signal sd.filtered_signal with
  | some l => some l
  | none => nonempty_signal sd.signal_mv

/-- The body of the per-sample loop of `process_all_samples` (lines 172–230).
`threshold_of` stands for the threshold the source derives from the selected
signal's RMS inside `detect_spikes_in_signal`.  The invalid-sampling-rate
branch (lines 186–190) warns and stores empty lists; the no-usable-signal
branch (lines 227–230) stores empty lists and a `None` metadata entry and does
not warn. -/
def process_one_sample (sampling_rate : ℚ) (threshold_of : List ℚ → ℚ)
    (sd : SampleData) : SampleResult :=
  match select_signal sd with
  | some signal =>
    if sampling_rate ≤ 0 then
      { spikes_raw_detected := []
      , spikes_refractory_filtered := []
      , spike_waveform_metadata := none
      , warned := true }
    else
      { spikes_raw_detected :=
          (detect_spikes_in_signal signal (threshold_of signal) sampling_rate).1
      , spikes_refractory_filtered :=
          attach_waveforms
            (detect_spikes_in_signal signal (threshold_of signal) sampling_rate).2
            (extract_spike_waveforms signal
              (detect_spikes_in_signal signal (threshold_of signal) sampling_rate).2
              2 3 sampling_rate)
      , spike_waveform_metadata :=
          some (extract_spike_waveforms signal
            (detect_spikes_in_signal signal (threshold_of signal) sampling_rate).2
            2 3 sampling_rate).time_axis
      , warned := false }
  | none =>
    { spikes_raw_detected := []
    , spikes_refractory_filtered := []
    , spike_waveform_metadata := none
    , warned := false }

/-- `SpikeDetector.process_all_samples` (lines 150–232): every sample of the
subject is processed independently, in order, with the shared subject-level
sampling rate; no sample aborts the iteration. -/
def process_all_samples (sampling_rate : ℚ) (threshold_of : List ℚ → ℚ)
    (samples : List (String × SampleData)) : List (String × SampleResult) :=
  samples.map (fun s => (s.1, process_one_sample sampling_rate threshold_of s.2))

/-- Forgets an attached waveform; used to state that refractory-filtered
events appear unmodified, up to the waveform field, among the raw events. -/
def erase_waveform (sp : Spike) : Spike :=
  { sp with waveform := none }

/-- Modelled from the spec: the absolute-polarity crossing mask
`mask[i] = |signal[i]| > threshold` (spec §4.1 step 4), which the spec claims
is one of two polarity choices of the detect operation.  The source
(`src/spike_detector.py`) has no such mode; this definition exists only to be
compared against `supra_threshold_mask`. -/
def absolute_mask_spec (signal : List ℚ) (threshold : ℚ) : List Bool :=
  signal.map (fun x => decide (|x| > threshold))

/-- `mask[i]` rises at `i`: position `i` is the first index of a maximal
`true` run.  Characterizes `diff_mask mask ! i = 1`. -/
def rise (mask : List Bool) (i : ℕ) : Bool :=
  mask.getD i false && (decide (i = 0) || !mask.getD (i - 1) false)

/-- `mask` falls at `i`: position `i` is the exclusive end of a maximal
`true` run.  Characterizes `diff_mask mask ! i = -1`. -/
def fall (mask : List Bool) (i : ℕ) : Bool :=
  (decide (0 < i) && mask.getD (i - 1) false) && !mask.getD i false

/-- Number of positions `< t` satisfying `p`. -/
def cnt (p : ℕ → Bool) (t : ℕ) : ℕ :=
  ((List.range t).filter p).length

/-- `[s, e)` is a maximal contiguous run of `true` samples of `mask`:
non-empty, in bounds, all `true`, and not extendable on either side. -/
def isMaxRun (mask : List Bool) (s e : ℕ) : Prop :=
  s < e ∧ e ≤ mask.length ∧ (∀ i, i < e → s ≤ i → mask.getD i false = true) ∧
    (s = 0 ∨ mask.getD (s - 1) false = false) ∧
    (e = mask.length ∨ mask.getD e false = false)

instance isMaxRun.instDecidable (mask : List Bool) (s e : ℕ) :
    Decidable (isMaxRun mask s e) := by
  unfold isMaxRun
  infer_instance

/-- The integer value of a mask position, `0` outside the mask. -/
def mask_bit (mask : List Bool) (i : ℕ) : ℤ :=
  if mask.getD i false then 1 else 0

/-- Position `t` is (strictly) inside a run that began before `t`:
the mask holds at `t - 1`. -/
def in_run (mask : List Bool) (t : ℕ) : Bool :=
  decide (0 < t) && mask.getD (t - 1) false

/-- The spike a non-empty segment reduces to (the `else` branch of
`segment_spike`). -/
def segment_peak (signal : List ℚ) (sampling_rate : ℚ) (se : ℕ × ℕ) : Spike :=
  let vals := segment_values signal se
  let k := argminIdx vals
  { time_s := ((se.1 + k : ℕ) : ℚ) / sampling_rate
  , amplitude_mv := vals.getD k 0
  , index := se.1 + k
  , waveform := none }

/-! ## Counting helpers for rise/fall positions -/

lemma filter_singleton_pos {p : ℕ → Bool} {n : ℕ} (h : p n = true) :
    List.filter p [n] = [n] := by
  simp [List.filter_cons, h]

lemma filter_singleton_neg {p : ℕ → Bool} {n : ℕ} (h : p n = false) :
    List.filter p [n] = [] := by
  simp [List.filter_cons, h]

lemma cnt_succ (p : ℕ → Bool) (t : ℕ) :
    cnt p (t + 1) = cnt p t + (if p t then 1 else 0) := by
  unfold cnt
  rw [List.range_succ, List.filter_append, List.length_append]
  cases h : p t
  · rw [filter_singleton_neg h]; simp
  · rw [filter_singleton_pos h]; simp

lemma cnt_mono (p : ℕ → Bool) {s t : ℕ} (h : s ≤ t) : cnt p s ≤ cnt p t := by
  induction t, h using Nat.le_induction with
  | base => exact Nat.le_refl _
  | succ n hmn ih =>
    rw [cnt_succ]
    exact le_trans ih (Nat.le_add_right _ _)

lemma cnt_lt_of (p : ℕ → Bool) {i t : ℕ} (hp : p i = true) (h : i < t) :
    cnt p i < cnt p t := by
  have h1 : cnt p (i + 1) = cnt p i + 1 := by rw [cnt_succ, hp]; simp
  have h2 := cnt_mono p (show i + 1 ≤ t from h)
  omega

lemma cnt_eq_of_none (p : ℕ → Bool) {s t : ℕ} (h : s ≤ t)
    (hnone : ∀ j, s ≤ j → j < t → p j = false) : cnt p t = cnt p s := by
  induction t, h using Nat.le_induction with
  | base => rfl
  | succ n hmn ih =>
    rw [cnt_succ, hnone n hmn (by omega)]
    simpa using ih (fun j hj hj2 => hnone j hj (by omega))

lemma filter_range_getElem (p : ℕ → Bool) (N k : ℕ)
    (hk : k < ((List.range N).filter p).length) :
    p (((List.range N).filter p)[k]) = true ∧ ((List.range N).filter p)[k] < N ∧
      cnt p (((List.range N).filter p)[k]) = k := by
  induction N with
  | zero => simp at hk
  | succ n ih =>
    simp only [List.range_succ, List.filter_append] at hk ⊢
    by_cases hcase : k < ((List.range n).filter p).length
    · rw [List.getElem_append_left hcase]
      obtain ⟨a, b, c⟩ := ih hcase
      exact ⟨a, by omega, c⟩
    · cases hpn : p n with
      | false =>
        exfalso
        rw [filter_singleton_neg hpn, List.length_append] at hk
        simp at hk
        omega
      | true =>
        simp only [filter_singleton_pos hpn] at hk ⊢
        have hklen : k = ((List.range n).filter p).length := by
          rw [List.length_append] at hk
          simp at hk
          omega
        rw [List.getElem_append_right (by omega)]
        simp only [hklen, Nat.sub_self, List.getElem_cons_zero]
        exact ⟨hpn, by omega, rfl⟩

lemma filter_range_getElem_of (p : ℕ → Bool) {N i : ℕ} (hp : p i = true) (hi : i < N) :
    cnt p i < ((List.range N).filter p).length ∧
      ((List.range N).filter p)[cnt p i]? = some i := by
  induction N with
  | zero => omega
  | succ n ih =>
    have hsplit : (List.range (n + 1)).filter p =
        (List.range n).filter p ++ List.filter p [n] := by
      rw [List.range_succ, List.filter_append]
    by_cases hin : i < n
    · obtain ⟨h1, h2⟩ := ih hin
      constructor
      · rw [hsplit, List.length_append]; omega
      · rw [hsplit, List.getElem?_append_left h1]; exact h2
    · have hieq : i = n := by omega
      subst hieq
      have hc : cnt p i = ((List.range i).filter p).length := rfl
      constructor
      · rw [hsplit, List.length_append, filter_singleton_pos hp, hc]; simp
      · rw [hsplit, List.getElem?_append_right (by rw [hc]), filter_singleton_pos hp]
        simp [hc]

/-! ## The diff-based segment construction finds exactly the maximal runs -/

lemma padded_mask_getD (mask : List Bool) (i : ℕ) :
    (padded_mask mask).getD i 0 = if i = 0 then 0 else mask_bit mask (i - 1) := by
  unfold padded_mask
  cases i with
  | zero => simp
  | succ j =>
    simp only [List.cons_append, List.map_cons, List.getD_cons_succ]
    simp only [Nat.succ_ne_zero, if_false, Nat.add_sub_cancel]
    induction mask generalizing j with
    | nil => cases j <;> simp [mask_bit]
    | cons b rest ih =>
      cases j with
      | zero => simp [mask_bit]
      | succ m =>
        simp only [List.cons_append, List.map_cons, List.getD_cons_succ]
        rw [ih m]
        simp [mask_bit]

lemma diff_mask_length (mask : List Bool) :
    (diff_mask mask).length = mask.length + 1 := by
  simp [diff_mask, np_diff, padded_mask]

lemma padded_mask_length (mask : List Bool) :
    (padded_mask mask).length = mask.length + 2 := by
  simp [padded_mask]

lemma diff_mask_getD (mask : List Bool) {i : ℕ} (h : i < mask.length + 1) :
    (diff_mask mask).getD i 0 =
      mask_bit mask i - (if i = 0 then 0 else mask_bit mask (i - 1)) := by
  have hlen : i < (diff_mask mask).length := by rw [diff_mask_length]; exact h
  rw [List.getD_eq_getElem _ _ hlen]
  unfold diff_mask np_diff
  have hzip : i < ((padded_mask mask).zip (padded_mask mask).tail).length := by
    simpa [diff_mask, np_diff] using hlen
  have hp1 : i < (padded_mask mask).length := by rw [padded_mask_length]; omega
  have hp2 : i + 1 < (padded_mask mask).length := by rw [padded_mask_length]; omega
  rw [List.getElem_map, List.getElem_zip, List.getElem_tail]
  have h1 : (padded_mask mask)[i] = (padded_mask mask).getD i 0 :=
    (List.getD_eq_getElem _ _ _).symm
  have h2 : (padded_mask mask)[i + 1] = (padded_mask mask).getD (i + 1) 0 :=
    (List.getD_eq_getElem _ _ _).symm
  rw [h1, h2, padded_mask_getD, padded_mask_getD]
  simp

lemma diff_eq_one_iff (mask : List Bool) {i : ℕ} (h : i < mask.length + 1) :
    ((diff_mask mask).getD i 0 == 1) = rise mask i := by
  rw [diff_mask_getD mask h]
  unfold rise mask_bit
  rcases Nat.eq_zero_or_pos i with h0 | h0
  · subst h0
    cases hm : mask.getD 0 false <;> simp [hm]
  · have hne : ¬ (i = 0) := by omega
    cases hm : mask.getD i false <;> cases hm' : mask.getD (i - 1) false <;>
      simp [hm, hm', hne, h0]

lemma diff_eq_neg_one_iff (mask : List Bool) {i : ℕ} (h : i < mask.length + 1) :
    ((diff_mask mask).getD i 0 == -1) = fall mask i := by
  rw [diff_mask_getD mask h]
  unfold fall mask_bit
  rcases Nat.eq_zero_or_pos i with h0 | h0
  · subst h0
    cases hm : mask.getD 0 false <;> simp [hm]
  · have hne : ¬ (i = 0) := by omega
    cases hm : mask.getD i false <;> cases hm' : mask.getD (i - 1) false <;>
      simp [hm, hm', hne, h0]

lemma segment_starts_eq (mask : List Bool) :
    segment_starts mask = (List.range (mask.length + 1)).filter (rise mask) := by
  unfold segment_starts np_where_eq
  rw [diff_mask_length]
  exact List.filter_congr (fun i hi => diff_eq_one_iff mask (List.mem_range.mp hi))

lemma segment_ends_eq (mask : List Bool) :
    segment_ends mask = (List.range (mask.length + 1)).filter (fall mask) := by
  unfold segment_ends np_where_eq
  rw [diff_mask_length]
  exact List.filter_congr (fun i hi => diff_eq_neg_one_iff mask (List.mem_range.mp hi))

lemma getD_true_lt (mask : List Bool) {i : ℕ} (h : mask.getD i false = true) :
    i < mask.length := by
  by_contra hc
  push_neg at hc
  rw [List.getD_eq_default _ _ hc] at h
  exact Bool.false_ne_true h

lemma rise_elim {mask : List Bool} {i : ℕ} (h : rise mask i = true) :
    mask.getD i false = true ∧ (i = 0 ∨ mask.getD (i - 1) false = false) := by
  unfold rise at h
  cases hm : mask.getD i false <;> rw [hm] at h
  · simp at h
  · refine ⟨rfl, ?_⟩
    by_cases h0 : i = 0
    · exact Or.inl h0
    · cases hm' : mask.getD (i - 1) false <;> rw [hm'] at h
      · exact Or.inr rfl
      · simp [h0] at h

lemma rise_intro {mask : List Bool} {i : ℕ} (h1 : mask.getD i false = true)
    (h2 : i = 0 ∨ mask.getD (i - 1) false = false) : rise mask i = true := by
  unfold rise
  rw [h1]
  rcases h2 with h2 | h2
  · simp [h2]
  · rw [h2]
    simp

lemma fall_elim {mask : List Bool} {i : ℕ} (h : fall mask i = true) :
    0 < i ∧ mask.getD (i - 1) false = true ∧ mask.getD i false = false := by
  unfold fall at h
  cases hm' : mask.getD (i - 1) false <;> rw [hm'] at h
  · simp at h
  · cases hm : mask.getD i false <;> rw [hm] at h
    · simp at h
      exact ⟨h, rfl, rfl⟩
    · simp at h

lemma fall_intro {mask : List Bool} {i : ℕ} (h0 : 0 < i)
    (h1 : mask.getD (i - 1) false = true) (h2 : mask.getD i false = false) :
    fall mask i = true := by
  unfold fall
  rw [h1, h2]
  simp [h0]

lemma in_run_of_rise {mask : List Bool} {i : ℕ} (h : rise mask i = true) :
    in_run mask i = false := by
  rcases rise_elim h with ⟨h1, h2⟩
  unfold in_run
  rcases h2 with h2 | h2
  · subst h2
    simp
  · rw [h2]
    simp

lemma cnt_rise_eq_cnt_fall_add (mask : List Bool) (t : ℕ) :
    cnt (rise mask) t = cnt (fall mask) t + (if in_run mask t then 1 else 0) := by
  induction t with
  | zero => simp [cnt, in_run]
  | succ n ih =>
    rw [cnt_succ, cnt_succ, ih]
    have hir : in_run mask (n + 1) = mask.getD n false := by
      unfold in_run
      simp
    rcases Nat.eq_zero_or_pos n with h0 | h0
    · subst h0
      have h1 : in_run mask 0 = false := by unfold in_run; simp
      have h2 : fall mask 0 = false := by unfold fall; simp
      have h3 : rise mask 0 = mask.getD 0 false := by unfold rise; simp
      rw [h1, h2, h3, hir]
    · have hne : ¬ (n = 0) := by omega
      have hrn : rise mask n = (mask.getD n false && !mask.getD (n - 1) false) := by
        unfold rise
        simp [hne]
      have hfn : fall mask n = (mask.getD (n - 1) false && !mask.getD n false) := by
        unfold fall
        simp [h0]
      have hin : in_run mask n = mask.getD (n - 1) false := by
        unfold in_run
        simp [h0]
      rw [hrn, hfn, hin, hir]
      cases hm : mask.getD n false <;> cases hm' : mask.getD (n - 1) false <;> simp

lemma no_fall_between {mask : List Bool} {s e j : ℕ}
    (hse : cnt (fall mask) s = cnt (fall mask) e) (hsj : s ≤ j) (hje : j < e)
    (hf : fall mask j = true) : False := by
  have h1 := cnt_mono (fall mask) hsj
  have h2 := cnt_lt_of (fall mask) hf hje
  omega

lemma run_interior {mask : List Bool} {s e : ℕ}
    (hs : mask.getD s false = true)
    (hnofall : ∀ j, s ≤ j → j < e → fall mask j = false) :
    ∀ j, s ≤ j → j < e → mask.getD j false = true := by
  intro j hsj
  induction j, hsj using Nat.le_induction with
  | base => intro _; exact hs
  | succ n hsn ih =>
    intro hje
    have hn : mask.getD n false = true := ih (by omega)
    by_contra hc
    rw [Bool.not_eq_true] at hc
    have hfn : fall mask (n + 1) = true :=
      fall_intro (by omega) (by simpa using hn) hc
    rw [hnofall (n + 1) (by omega) hje] at hfn
    exact Bool.false_ne_true hfn

/-- The zipped `(segment_starts, segment_ends)` list produced by the numpy
diff construction (lines 63–69) enumerates exactly the maximal contiguous
`true` runs of the mask. -/
lemma mem_segments_iff_isMaxRun (mask : List Bool) (s e : ℕ) :
    (s, e) ∈ (segment_starts mask).zip (segment_ends mask) ↔ isMaxRun mask s e := by
  rw [segment_starts_eq, segment_ends_eq]
  constructor
  · intro hmem
    rcases List.mem_iff_getElem.mp hmem with ⟨k, hk, hzip⟩
    have hkS : k < ((List.range (mask.length + 1)).filter (rise mask)).length := by
      rw [List.length_zip] at hk
      exact lt_of_lt_of_le hk (min_le_left _ _)
    have hkE : k < ((List.range (mask.length + 1)).filter (fall mask)).length := by
      rw [List.length_zip] at hk
      exact lt_of_lt_of_le hk (min_le_right _ _)
    rw [List.getElem_zip] at hzip
    have hSk : ((List.range (mask.length + 1)).filter (rise mask))[k] = s :=
      congrArg Prod.fst hzip
    have hEk : ((List.range (mask.length + 1)).filter (fall mask))[k] = e :=
      congrArg Prod.snd hzip
    obtain ⟨hrise, hsN, hcR⟩ := filter_range_getElem (rise mask) (mask.length + 1) k hkS
    obtain ⟨hfall, heN, hcF⟩ := filter_range_getElem (fall mask) (mask.length + 1) k hkE
    rw [hSk] at hrise hcR
    rw [hEk] at hfall hcF heN
    rcases rise_elim hrise with ⟨hms, hleft⟩
    rcases fall_elim hfall with ⟨hepos, hme1, hme⟩
    have hcFs : cnt (fall mask) s = k := by
      have hid := cnt_rise_eq_cnt_fall_add mask s
      rw [in_run_of_rise hrise] at hid
      simp at hid
      omega
    have hslt : s < e := by
      rcases Nat.lt_trichotomy s e with h | h | h
      · exact h
      · exfalso
        rw [← h, hms] at hme
        exact Bool.false_ne_true hme.symm
      · exfalso
        have := cnt_lt_of (fall mask) hfall h
        omega
    have hnofall : ∀ j, s ≤ j → j < e → fall mask j = false := by
      intro j hsj hje
      by_contra hc
      rw [Bool.not_eq_false] at hc
      exact no_fall_between (by rw [hcFs, hcF]) hsj hje hc
    have hinterior := run_interior hms hnofall
    exact ⟨hslt, by omega, fun i hie hsi => hinterior i hsi hie, hleft, Or.inr hme⟩
  · intro hrun
    obtain ⟨hslt, helen, hint, hleft, hright⟩ := hrun
    have hms : mask.getD s false = true := hint s hslt (le_refl s)
    have hrise : rise mask s = true := rise_intro hms hleft
    have hme1 : mask.getD (e - 1) false = true := hint (e - 1) (by omega) (by omega)
    have hme : mask.getD e false = false := by
      rcases hright with h | h
      · exact List.getD_eq_default _ _ (le_of_eq h.symm)
      · exact h
    have hfall : fall mask e = true := fall_intro (by omega) hme1 hme
    have hcFs_cR : cnt (fall mask) s = cnt (rise mask) s := by
      have hid := cnt_rise_eq_cnt_fall_add mask s
      rw [in_run_of_rise hrise] at hid
      simpa using hid.symm
    have hnofall : ∀ j, s ≤ j → j < e → fall mask j = false := by
      intro j hsj hje
      have hmj : mask.getD j false = true := hint j hje hsj
      unfold fall
      rw [hmj]
      simp
    have hcFe : cnt (fall mask) e = cnt (rise mask) s := by
      rw [cnt_eq_of_none (fall mask) (le_of_lt hslt) hnofall]
      exact hcFs_cR
    obtain ⟨hlenS, hgetS⟩ :=
      filter_range_getElem_of (rise mask) hrise (show s < mask.length + 1 by omega)
    obtain ⟨hlenE, hgetE⟩ :=
      filter_range_getElem_of (fall mask) hfall (show e < mask.length + 1 by omega)
    rw [hcFe] at hlenE hgetE
    have hkzip : cnt (rise mask) s <
        (((List.range (mask.length + 1)).filter (rise mask)).zip
          ((List.range (mask.length + 1)).filter (fall mask))).length := by
      rw [List.length_zip]
      exact lt_min hlenS hlenE
    have hval : (((List.range (mask.length + 1)).filter (rise mask)).zip
        ((List.range (mask.length + 1)).filter (fall mask)))[cnt (rise mask) s] = (s, e) := by
      rw [List.getElem_zip]
      have h1 := List.getElem?_eq_getElem hlenS
      rw [hgetS] at h1
      have h2 := List.getElem?_eq_getElem hlenE
      rw [hgetE] at h2
      rw [Option.some.injEq] at h1 h2
      rw [← h1, ← h2]
    exact hval ▸ List.getElem_mem hkzip

lemma isMaxRun_disjoint {mask : List Bool} {s e s' e' : ℕ}
    (h : isMaxRun mask s e) (h' : isMaxRun mask s' e') (hss : s < s') : e ≤ s' := by
  obtain ⟨hslt, helen, hint, _, _⟩ := h
  obtain ⟨_, _, _, hleft', _⟩ := h'
  by_contra hc
  push_neg at hc
  rcases hleft' with h0 | hm
  · omega
  · have hin : mask.getD (s' - 1) false = true := hint (s' - 1) (by omega) (by omega)
    rw [hm] at hin
    exact Bool.false_ne_true hin

lemma segments_pairwise_fst (mask : List Bool) :
    List.Pairwise (fun p q : ℕ × ℕ => p.1 < q.1)
      ((segment_starts mask).zip (segment_ends mask)) := by
  have hS : List.Pairwise (· < ·) (segment_starts mask) := by
    rw [segment_starts_eq]
    exact (List.pairwise_lt_range _).filter _
  rw [List.pairwise_iff_getElem] at hS ⊢
  intro i j hi hj hij
  have hiS : i < (segment_starts mask).length := by
    rw [List.length_zip] at hi
    exact lt_of_lt_of_le hi (min_le_left _ _)
  have hjS : j < (segment_starts mask).length := by
    rw [List.length_zip] at hj
    exact lt_of_lt_of_le hj (min_le_left _ _)
  rw [List.getElem_zip, List.getElem_zip]
  exact hS i j hiS hjS hij

/-! ## The first-minimum reduction of a segment -/

lemma argminIdx_lt {l : List ℚ} (h : l ≠ []) : argminIdx l < l.length := by
  induction l with
  | nil => exact absurd rfl h
  | cons x xs ih =>
    unfold argminIdx
    by_cases hall : xs.all (fun y => decide (x ≤ y)) = true
    · rw [if_pos hall]
      simp
    · rw [if_neg hall]
      have hxs : xs ≠ [] := by
        intro hnil
        subst hnil
        simp at hall
      have := ih hxs
      simp only [List.length_cons]
      omega

lemma argminIdx_le {l : List ℚ} : ∀ j, j < l.length → l.getD (argminIdx l) 0 ≤ l.getD j 0 := by
  induction l with
  | nil =>
    intro j hj
    simp at hj
  | cons x xs ih =>
    intro j hj
    unfold argminIdx
    by_cases hall : xs.all (fun y => decide (x ≤ y)) = true
    · rw [if_pos hall]
      cases j with
      | zero => exact le_refl _
      | succ m =>
        rw [List.getD_cons_zero, List.getD_cons_succ]
        have hmlt : m < xs.length := by
          rw [List.length_cons] at hj
          omega
        have hmem : xs.getD m 0 ∈ xs := by
          rw [List.getD_eq_getElem _ _ hmlt]
          exact List.getElem_mem hmlt
        exact of_decide_eq_true (List.all_eq_true.mp hall _ hmem)
    · rw [if_neg hall]
      rw [List.getD_cons_succ]
      have hex : ∃ y ∈ xs, y < x := by
        by_contra hc
        push_neg at hc
        apply hall
        rw [List.all_eq_true]
        intro y hy
        exact decide_eq_true (hc y hy)
      obtain ⟨y, hym, hyx⟩ := hex
      rcases List.mem_iff_getElem.mp hym with ⟨k, hk, hky⟩
      have hminy : xs.getD (argminIdx xs) 0 ≤ y := by
        have h1 := ih k hk
        rw [List.getD_eq_getElem _ _ hk, hky] at h1
        exact h1
      cases j with
      | zero =>
        rw [List.getD_cons_zero]
        exact le_of_lt (lt_of_le_of_lt hminy hyx)
      | succ m =>
        rw [List.getD_cons_succ]
        apply ih
        rw [List.length_cons] at hj
        omega

lemma argminIdx_first {l : List ℚ} :
    ∀ j, j < argminIdx l → l.getD (argminIdx l) 0 < l.getD j 0 := by
  induction l with
  | nil =>
    intro j hj
    unfold argminIdx at hj
    omega
  | cons x xs ih =>
    intro j hj
    unfold argminIdx at hj ⊢
    by_cases hall : xs.all (fun y => decide (x ≤ y)) = true
    · rw [if_pos hall] at hj
      omega
    · rw [if_neg hall] at hj ⊢
      rw [List.getD_cons_succ]
      have hex : ∃ y ∈ xs, y < x := by
        by_contra hc
        push_neg at hc
        apply hall
        rw [List.all_eq_true]
        intro y hy
        exact decide_eq_true (hc y hy)
      obtain ⟨y, hym, hyx⟩ := hex
      rcases List.mem_iff_getElem.mp hym with ⟨k, hk, hky⟩
      have hminy : xs.getD (argminIdx xs) 0 ≤ y := by
        have h1 := argminIdx_le k hk
        rw [List.getD_eq_getElem _ _ hk, hky] at h1
        exact h1
      cases j with
      | zero =>
        rw [List.getD_cons_zero]
        exact lt_of_le_of_lt hminy hyx
      | succ m =>
        rw [List.getD_cons_succ]
        exact ih m (by omega)

lemma segment_values_length {signal : List ℚ} {s e : ℕ} (he : e ≤ signal.length) :
    (segment_values signal (s, e)).length = e - s := by
  simp only [segment_values, List.length_take, List.length_drop]
  omega

lemma segment_values_getD {signal : List ℚ} {s e j : ℕ} (hj : j < e - s)
    (he : e ≤ signal.length) :
    (segment_values signal (s, e)).getD j 0 = signal.getD (s + j) 0 := by
  have hlen : j < (segment_values signal (s, e)).length := by
    rw [segment_values_length he]
    omega
  rw [List.getD_eq_getElem _ _ hlen]
  have hsj : s + j < signal.length := by omega
  unfold segment_values at hlen ⊢
  rw [List.getElem_take, List.getElem_drop]
  exact (List.getD_eq_getElem _ _ hsj).symm

lemma segment_peak_index_def (signal : List ℚ) (sr : ℚ) (se : ℕ × ℕ) :
    (segment_peak signal sr se).index = se.1 + argminIdx (segment_values signal se) := rfl

lemma segment_peak_amp_def (signal : List ℚ) (sr : ℚ) (se : ℕ × ℕ) :
    (segment_peak signal sr se).amplitude_mv =
      (segment_values signal se).getD (argminIdx (segment_values signal se)) 0 := rfl

lemma segment_peak_time_def (signal : List ℚ) (sr : ℚ) (se : ℕ × ℕ) :
    (segment_peak signal sr se).time_s = ((segment_peak signal sr se).index : ℚ) / sr := rfl

lemma segment_peak_waveform_def (signal : List ℚ) (sr : ℚ) (se : ℕ × ℕ) :
    (segment_peak signal sr se).waveform = none := rfl

lemma segment_spike_eq {signal : List ℚ} {sr : ℚ} {se : ℕ × ℕ}
    (h : ¬ (segment_values signal se).length = 0) :
    segment_spike signal sr se = some (segment_peak signal sr se) := by
  unfold segment_spike segment_peak
  rw [if_neg h]

lemma filterMap_eq_map_of_forall {α β : Type} {g : α → Option β} {f : α → β} {l : List α}
    (h : ∀ x ∈ l, g x = some (f x)) : l.filterMap g = l.map f := by
  induction l with
  | nil => rfl
  | cons a l ih =>
    rw [List.filterMap_cons, h a (List.mem_cons_self a l), List.map_cons,
      ih (fun x hx => h x (List.mem_cons_of_mem a hx))]

lemma mem_segments_isMaxRun {mask : List Bool} {se : ℕ × ℕ}
    (h : se ∈ (segment_starts mask).zip (segment_ends mask)) : isMaxRun mask se.1 se.2 := by
  rw [← mem_segments_iff_isMaxRun]
  simpa using h

lemma detected_eq_map_peak {signal : List ℚ} (sr : ℚ) {mask : List Bool}
    (hlen : mask.length = signal.length) :
    detected_spikes_of_mask signal sr mask =
      ((segment_starts mask).zip (segment_ends mask)).map (segment_peak signal sr) := by
  unfold detected_spikes_of_mask
  apply filterMap_eq_map_of_forall
  intro se hse
  obtain ⟨s, e⟩ := se
  have hrun := mem_segments_isMaxRun hse
  obtain ⟨hr1, hr2, -, -, -⟩ := hrun
  simp only at hr1 hr2
  rw [hlen] at hr2
  apply segment_spike_eq
  rw [segment_values_length hr2]
  omega

lemma detected_time_eq {signal : List ℚ} {sr : ℚ} {mask : List Bool}
    (hlen : mask.length = signal.length) {sp : Spike}
    (h : sp ∈ detected_spikes_of_mask signal sr mask) :
    sp.time_s = (sp.index : ℚ) / sr := by
  rw [detected_eq_map_peak sr hlen] at h
  rcases List.mem_map.mp h with ⟨se, _, rfl⟩
  rfl

lemma detected_pairwise_index {signal : List ℚ} (sr : ℚ) {mask : List Bool}
    (hlen : mask.length = signal.length) :
    List.Pairwise (fun a b : Spike => a.index < b.index)
      (detected_spikes_of_mask signal sr mask) := by
  rw [detected_eq_map_peak sr hlen, List.pairwise_map]
  apply List.Pairwise.imp_of_mem ?_ (segments_pairwise_fst mask)
  intro p q hpmem hqmem hlt
  obtain ⟨ps, pe⟩ := p
  obtain ⟨qs, qe⟩ := q
  have hrp := mem_segments_isMaxRun hpmem
  have hrq := mem_segments_isMaxRun hqmem
  simp only at hrp hrq hlt
  have hpe : pe ≤ qs := isMaxRun_disjoint hrp hrq hlt
  have hr1 : ps < pe := hrp.1
  have hr2 : pe ≤ signal.length := by
    have := hrp.2.1
    omega
  rw [segment_peak_index_def, segment_peak_index_def]
  have hvne : ¬ (segment_values signal (ps, pe)).length = 0 := by
    rw [segment_values_length hr2]
    omega
  have hplt : argminIdx (segment_values signal (ps, pe)) <
      (segment_values signal (ps, pe)).length := by
    apply argminIdx_lt
    intro h0
    rw [h0] at hvne
    simp at hvne
  rw [segment_values_length hr2] at hplt
  simp only
  omega

lemma raw_eq_detected {signal : List ℚ} {sr : ℚ} (hsr : 0 < sr) {mask : List Bool}
    (hlen : mask.length = signal.length) :
    (detected_spikes_of_mask signal sr mask).mergeSort spike_le =
      detected_spikes_of_mask signal sr mask := by
  apply List.mergeSort_of_sorted
  apply List.Pairwise.imp_of_mem ?_ (detected_pairwise_index sr hlen)
  intro a b ha hb hab
  unfold spike_le
  rw [decide_eq_true_iff]
  rw [detected_time_eq hlen ha, detected_time_eq hlen hb]
  have hc : (a.index : ℚ) ≤ (b.index : ℚ) := by
    exact_mod_cast Nat.le_of_lt hab
  exact (div_le_div_iff_of_pos_right hsr).mpr hc

/-! ## The greedy refractory filter -/

lemma refractory_state_windows (before_s after_s : ℚ) (spikes : List Spike) :
    (spikes.foldl (refractory_step before_s after_s) ([], [])).2 =
      (spikes.foldl (refractory_step before_s after_s) ([], [])).1.map
        (fun q => (q.time_s - before_s, q.time_s + after_s)) := by
  suffices h : ∀ st : List Spike × List (ℚ × ℚ),
      st.2 = st.1.map (fun q => (q.time_s - before_s, q.time_s + after_s)) →
      (spikes.foldl (refractory_step before_s after_s) st).2 =
        (spikes.foldl (refractory_step before_s after_s) st).1.map
          (fun q => (q.time_s - before_s, q.time_s + after_s)) by
    exact h ([], []) rfl
  induction spikes with
  | nil =>
    intro st hst
    exact hst
  | cons sp rest ih =>
    intro st hst
    rw [List.foldl_cons]
    apply ih
    unfold refractory_step
    by_cases hc :
        st.2.any (fun w => decide (w.1 ≤ sp.time_s) && decide (sp.time_s ≤ w.2)) = true
    · rw [if_pos hc]
      exact hst
    · rw [if_neg hc]
      simp only [List.map_append, List.map_cons, List.map_nil]
      rw [hst]

lemma any_map_comp {α β : Type} (f : α → β) (p : β → Bool) (l : List α) :
    (l.map f).any p = l.any (fun x => p (f x)) := by
  induction l with
  | nil => rfl
  | cons a l ih => simp [ih]

lemma refractory_step_eq (before_s after_s : ℚ) (st : List Spike × List (ℚ × ℚ))
    (sp : Spike) :
    refractory_step before_s after_s st sp =
      if st.2.any (fun w => decide (w.1 ≤ sp.time_s) && decide (sp.time_s ≤ w.2)) then st
      else (st.1 ++ [sp], st.2 ++ [(sp.time_s - before_s, sp.time_s + after_s)]) := rfl

lemma refractory_snoc (before_s after_s : ℚ) (pre : List Spike) (sp : Spike) :
    filter_spikes_iterative_refractory (pre ++ [sp]) before_s after_s =
      (if (filter_spikes_iterative_refractory pre before_s after_s).any
            (fun q => decide (q.time_s - before_s ≤ sp.time_s) &&
              decide (sp.time_s ≤ q.time_s + after_s)) then
        filter_spikes_iterative_refractory pre before_s after_s
      else filter_spikes_iterative_refractory pre before_s after_s ++ [sp]) := by
  unfold filter_spikes_iterative_refractory
  rw [List.foldl_append, List.foldl_cons, List.foldl_nil]
  have hw := refractory_state_windows before_s after_s pre
  rw [refractory_step_eq, hw, any_map_comp]
  by_cases hc : (pre.foldl (refractory_step before_s after_s) ([], [])).1.any
      (fun q => decide (q.time_s - before_s ≤ sp.time_s) &&
        decide (sp.time_s ≤ q.time_s + after_s)) = true
  · rw [if_pos hc, if_pos hc]
  · rw [if_neg hc, if_neg hc]

lemma refractory_pairwise (before_s after_s : ℚ) (spikes : List Spike) :
    List.Pairwise
      (fun x y => ¬ (x.time_s - before_s ≤ y.time_s ∧ y.time_s ≤ x.time_s + after_s))
      (filter_spikes_iterative_refractory spikes before_s after_s) := by
  induction spikes using List.reverseRecOn with
  | nil => exact List.Pairwise.nil
  | append_singleton pre sp ih =>
    rw [refractory_snoc]
    by_cases hc : (filter_spikes_iterative_refractory pre before_s after_s).any
        (fun q => decide (q.time_s - before_s ≤ sp.time_s) &&
          decide (sp.time_s ≤ q.time_s + after_s)) = true
    · rw [if_pos hc]
      exact ih
    · rw [if_neg hc]
      rw [List.pairwise_append]
      refine ⟨ih, List.pairwise_singleton _ _, ?_⟩
      intro a ha b hb
      rw [List.mem_singleton] at hb
      subst hb
      intro hcon
      apply hc
      rw [List.any_eq_true]
      exact ⟨a, ha, by
        rw [Bool.and_eq_true]
        exact ⟨decide_eq_true hcon.1, decide_eq_true hcon.2⟩⟩

lemma refractory_sublist (before_s after_s : ℚ) (spikes : List Spike) :
    (filter_spikes_iterative_refractory spikes before_s after_s).Sublist spikes := by
  induction spikes using List.reverseRecOn with
  | nil => exact List.Sublist.refl _
  | append_singleton pre sp ih =>
    rw [refractory_snoc]
    by_cases hc : (filter_spikes_iterative_refractory pre before_s after_s).any
        (fun q => decide (q.time_s - before_s ≤ sp.time_s) &&
          decide (sp.time_s ≤ q.time_s + after_s)) = true
    · rw [if_pos hc]
      exact ih.trans (List.sublist_append_left pre [sp])
    · rw [if_neg hc]
      exact ih.append (List.Sublist.refl [sp])

lemma refractory_accept_iff (before_s after_s : ℚ) (pre : List Spike) (sp : Spike) :
    filter_spikes_iterative_refractory (pre ++ [sp]) before_s after_s =
        filter_spikes_iterative_refractory pre before_s after_s ++ [sp] ↔
      ∀ q ∈ filter_spikes_iterative_refractory pre before_s after_s,
        ¬ (q.time_s - before_s ≤ sp.time_s ∧ sp.time_s ≤ q.time_s + after_s) := by
  rw [refractory_snoc]
  by_cases hc : (filter_spikes_iterative_refractory pre before_s after_s).any
      (fun q => decide (q.time_s - before_s ≤ sp.time_s) &&
        decide (sp.time_s ≤ q.time_s + after_s)) = true
  · rw [if_pos hc]
    constructor
    · intro heq
      exfalso
      have := congrArg List.length heq
      rw [List.length_append] at this
      simp at this
    · intro hall
      exfalso
      rcases List.any_eq_true.mp hc with ⟨q, hq, hqp⟩
      rw [Bool.and_eq_true] at hqp
      exact hall q hq ⟨of_decide_eq_true hqp.1, of_decide_eq_true hqp.2⟩
  · rw [if_neg hc]
    constructor
    · intro _ q hq hcon
      apply hc
      rw [List.any_eq_true]
      exact ⟨q, hq, by
        rw [Bool.and_eq_true]
        exact ⟨decide_eq_true hcon.1, decide_eq_true hcon.2⟩⟩
    · intro _
      rfl

lemma refractory_reject (before_s after_s : ℚ) (pre : List Spike) (sp : Spike)
    (h : ∃ q ∈ filter_spikes_iterative_refractory pre before_s after_s,
      q.time_s - before_s ≤ sp.time_s ∧ sp.time_s ≤ q.time_s + after_s) :
    filter_spikes_iterative_refractory (pre ++ [sp]) before_s after_s =
      filter_spikes_iterative_refractory pre before_s after_s := by
  rw [refractory_snoc]
  rcases h with ⟨q, hq, hcon⟩
  rw [if_pos]
  rw [List.any_eq_true]
  exact ⟨q, hq, by
    rw [Bool.and_eq_true]
    exact ⟨decide_eq_true hcon.1, decide_eq_true hcon.2⟩⟩

/-! ## Detector assembly -/

lemma supra_threshold_mask_length (signal : List ℚ) (t : ℚ) :
    (supra_threshold_mask signal t).length = signal.length := by
  simp [supra_threshold_mask]

lemma supra_threshold_mask_getD (signal : List ℚ) (t : ℚ) {i : ℕ} (h : i < signal.length) :
    (supra_threshold_mask signal t).getD i false = decide (signal.getD i 0 < t) := by
  have hm : i < (supra_threshold_mask signal t).length := by
    rw [supra_threshold_mask_length]
    exact h
  rw [List.getD_eq_getElem _ _ hm, List.getD_eq_getElem _ _ h]
  unfold supra_threshold_mask
  rw [List.getElem_map]

lemma any_of_isMaxRun {mask : List Bool} {s e : ℕ} (h : isMaxRun mask s e) :
    mask.any (fun b => b) = true := by
  obtain ⟨h1, h2, h3, -, -⟩ := h
  have hms : mask.getD s false = true := h3 s h1 (le_refl s)
  have hlt := getD_true_lt mask hms
  rw [List.any_eq_true]
  refine ⟨mask.getD s false, ?_, by rw [hms]⟩
  rw [List.getD_eq_getElem _ _ hlt]
  exact List.getElem_mem hlt

lemma detect_eq_of_any {signal : List ℚ} {t sr : ℚ}
    (hne : ¬ signal.length = 0) (hms : ¬ mean_square signal = 0)
    (hany : (supra_threshold_mask signal t).any (fun b => b) = true) :
    detect_spikes_in_signal signal t sr =
      ((detected_spikes_of_mask signal sr (supra_threshold_mask signal t)).mergeSort spike_le,
        filter_spikes_iterative_refractory
          ((detected_spikes_of_mask signal sr (supra_threshold_mask signal t)).mergeSort
            spike_le) ref_before_s ref_after_s) := by
  unfold detect_spikes_in_signal
  rw [if_neg hne, if_neg hms]
  rw [if_neg (by simp [hany])]

lemma sum_sq_eq_zero {l : List ℚ} (h : (l.map (fun x => x ^ 2)).sum = 0) :
    ∀ x ∈ l, x = 0 := by
  induction l with
  | nil =>
    intro x hx
    simp at hx
  | cons a l ih =>
    rw [List.map_cons, List.sum_cons] at h
    have ha2 : (0 : ℚ) ≤ a ^ 2 := sq_nonneg a
    have hs : (0 : ℚ) ≤ (l.map (fun x => x ^ 2)).sum := by
      apply List.sum_nonneg
      intro y hy
      rcases List.mem_map.mp hy with ⟨z, -, rfl⟩
      exact sq_nonneg z
    have hsum : (l.map (fun x => x ^ 2)).sum = 0 := by linarith
    intro x hx
    rcases List.mem_cons.mp hx with hx | hx
    · subst hx
      have ha : x ^ 2 = 0 := by linarith
      exact (pow_eq_zero_iff (by norm_num)).mp ha
    · exact ih hsum x hx

lemma mean_square_eq_zero_iff (signal : List ℚ) :
    mean_square signal = 0 ↔ ∀ x ∈ signal, x = 0 := by
  unfold mean_square
  rcases Nat.eq_zero_or_pos signal.length with h0 | h0
  · have heq : signal = [] := List.length_eq_zero.mp h0
    subst heq
    simp
  · have hlen : (signal.length : ℚ) ≠ 0 := Nat.cast_ne_zero.mpr (by omega)
    rw [div_eq_zero_iff]
    constructor
    · intro h
      rcases h with h | h
      · exact sum_sq_eq_zero h
      · exact absurd h hlen
    · intro h
      left
      apply List.sum_eq_zero
      intro y hy
      rcases List.mem_map.mp hy with ⟨z, hz, rfl⟩
      rw [h z hz]
      norm_num

lemma filter_eq_singleton_of_pairwise {l : List Spike}
    (hp : List.Pairwise (fun a b : Spike => a.index < b.index) l) (p : Spike → Bool)
    (x : Spike) (hx : x ∈ l) (hpx : p x = true)
    (honly : ∀ y ∈ l, p y = true → y.index = x.index) :
    l.filter p = [x] := by
  induction l with
  | nil => simp at hx
  | cons a l ih =>
    rw [List.pairwise_cons] at hp
    rcases List.mem_cons.mp hx with rfl | hx'
    · rw [List.filter_cons_of_pos hpx]
      have hnil : l.filter p = [] := by
        rw [List.filter_eq_nil_iff]
        intro y hy hpy
        have h1 := honly y (List.mem_cons_of_mem _ hy) hpy
        have h2 := hp.1 y hy
        omega
      rw [hnil]
    · have hpa : p a = false := by
        by_contra hc
        rw [Bool.not_eq_false] at hc
        have h1 := honly a (List.mem_cons_self a l) hc
        have h2 := hp.1 x hx'
        omega
      rw [List.filter_cons_of_neg (by rw [hpa]; exact Bool.false_ne_true)]
      exact ih hp.2 hx' (fun y hy hpy => honly y (List.mem_cons_of_mem _ hy) hpy)

lemma isMaxRun_eq_end {mask : List Bool} {s e e' : ℕ}
    (h : isMaxRun mask s e) (h' : isMaxRun mask s e') (hc : e < e') : False := by
  obtain ⟨hs1, he2, -, -, hright⟩ := h
  have hmt : mask.getD e false = true := h'.2.2.1 e hc (by omega)
  rcases hright with hE | hF
  · have := h'.2.1
    omega
  · rw [hF] at hmt
    exact Bool.false_ne_true hmt

lemma isMaxRun_unique {mask : List Bool} {s e s' e' i : ℕ}
    (h : isMaxRun mask s e) (h' : isMaxRun mask s' e')
    (h1 : s ≤ i) (h2 : i < e) (h3 : s' ≤ i) (h4 : i < e') : s = s' ∧ e = e' := by
  have hs : s = s' := by
    rcases Nat.lt_trichotomy s s' with hc | hc | hc
    · have := isMaxRun_disjoint h h' hc
      omega
    · exact hc
    · have := isMaxRun_disjoint h' h hc
      omega
  subst hs
  refine ⟨rfl, ?_⟩
  rcases Nat.lt_trichotomy e e' with hc | hc | hc
  · exact absurd (isMaxRun_eq_end h h' hc) (fun hfalse => hfalse)
  · exact hc
  · exact absurd (isMaxRun_eq_end h' h hc) (fun hfalse => hfalse)

lemma segment_peak_index_bounds {signal : List ℚ} (sr : ℚ) {s e : ℕ}
    (hse : s < e) (he : e ≤ signal.length) :
    s ≤ (segment_peak signal sr (s, e)).index ∧ (segment_peak signal sr (s, e)).index < e := by
  rw [segment_peak_index_def]
  constructor
  · simp
  · have hne : segment_values signal (s, e) ≠ [] := by
      intro h0
      have hl := segment_values_length (s := s) he
      rw [h0] at hl
      simp at hl
      omega
    have hlt := argminIdx_lt hne
    rw [segment_values_length he] at hlt
    simp only
    omega

/-- **C1.**  For every signal and every maximal contiguous run `[s, e)` of
samples strictly below the (negative) threshold, `detect_spikes_in_signal`
emits exactly one candidate inside the run; its `index` is the first index of
the run attaining the run's minimum value, its `amplitude_mv` is the signed
sample at that index (not its absolute value), and its `time_s` equals
`index / sampling_rate`.  A run of length one (`e = s + 1`) forces
`index = s`, so the single sample is its own peak.  Moreover every emitted
candidate lies inside some maximal run. -/
theorem C1_detect_one_candidate_per_run (signal : List ℚ)
    (threshold_value sampling_rate : ℚ) (hsr : 0 < sampling_rate)
    (hneg : threshold_value < 0) (s e : ℕ)
    (hrun : isMaxRun (supra_threshold_mask signal threshold_value) s e) :
    (∃ sp : Spike,
      (detect_spikes_in_signal signal threshold_value sampling_rate).1.filter
          (fun q => decide (s ≤ q.index) && decide (q.index < e)) = [sp] ∧
      s ≤ sp.index ∧ sp.index < e ∧
      (∀ j, s ≤ j → j < e → signal.getD sp.index 0 ≤ signal.getD j 0) ∧
      (∀ j, s ≤ j → j < sp.index → signal.getD sp.index 0 < signal.getD j 0) ∧
      sp.amplitude_mv = signal.getD sp.index 0 ∧
      sp.time_s = (sp.index : ℚ) / sampling_rate) ∧
    (∀ q ∈ (detect_spikes_in_signal signal threshold_value sampling_rate).1,
      ∃ s' e', isMaxRun (supra_threshold_mask signal threshold_value) s' e' ∧
        s' ≤ q.index ∧ q.index < e') := by
  have hlen : (supra_threshold_mask signal threshold_value).length = signal.length :=
    supra_threshold_mask_length signal threshold_value
  have hse : s < e := hrun.1
  have hesig : e ≤ signal.length := by
    have := hrun.2.1
    omega
  have hne : ¬ signal.length = 0 := by omega
  have hms0 : (supra_threshold_mask signal threshold_value).getD s false = true :=
    hrun.2.2.1 s hse (le_refl s)
  have hslen : s < signal.length := by omega
  have hsig_s : signal.getD s 0 < threshold_value := by
    rw [supra_threshold_mask_getD signal threshold_value hslen] at hms0
    exact of_decide_eq_true hms0
  have hmean : ¬ mean_square signal = 0 := by
    rw [mean_square_eq_zero_iff]
    intro hall
    have hmem : signal.getD s 0 ∈ signal := by
      rw [List.getD_eq_getElem _ _ hslen]
      exact List.getElem_mem hslen
    have h0 := hall _ hmem
    rw [h0] at hsig_s
    linarith
  have hany : (supra_threshold_mask signal threshold_value).any (fun b => b) = true :=
    any_of_isMaxRun hrun
  have hdet := @detect_eq_of_any signal threshold_value sampling_rate hne hmean hany
  have hraw : (detect_spikes_in_signal signal threshold_value sampling_rate).1 =
      detected_spikes_of_mask signal sampling_rate
        (supra_threshold_mask signal threshold_value) := by
    rw [hdet]
    exact raw_eq_detected hsr hlen
  have hmap := @detected_eq_map_peak signal sampling_rate _ hlen
  have hzipmem : (s, e) ∈ (segment_starts (supra_threshold_mask signal threshold_value)).zip
      (segment_ends (supra_threshold_mask signal threshold_value)) :=
    (mem_segments_iff_isMaxRun _ s e).mpr hrun
  have hxmem : segment_peak signal sampling_rate (s, e) ∈
      detected_spikes_of_mask signal sampling_rate
        (supra_threshold_mask signal threshold_value) := by
    rw [hmap]
    exact List.mem_map_of_mem _ hzipmem
  have hxbounds := @segment_peak_index_bounds signal sampling_rate _ _ hse hesig
  have hpair := @detected_pairwise_index signal sampling_rate _ hlen
  have hvne : segment_values signal (s, e) ≠ [] := by
    intro h0
    have hl := segment_values_length (s := s) hesig
    rw [h0] at hl
    simp at hl
    omega
  have hkb : argminIdx (segment_values signal (s, e)) < e - s := by
    have h1 := argminIdx_lt hvne
    rw [segment_values_length hesig] at h1
    exact h1
  constructor
  · refine ⟨segment_peak signal sampling_rate (s, e), ?_, hxbounds.1, hxbounds.2,
      ?_, ?_, ?_, segment_peak_time_def signal sampling_rate (s, e)⟩
    · rw [hraw]
      apply filter_eq_singleton_of_pairwise hpair _ _ hxmem
      · rw [Bool.and_eq_true]
        exact ⟨decide_eq_true hxbounds.1, decide_eq_true hxbounds.2⟩
      · intro y hy hpy
        rw [hmap] at hy
        rcases List.mem_map.mp hy with ⟨⟨s', e'⟩, hse'mem, rfl⟩
        have hrun' := mem_segments_isMaxRun hse'mem
        simp only at hrun'
        have hyb := @segment_peak_index_bounds signal sampling_rate _ _ hrun'.1
          (by
            have := hrun'.2.1
            omega)
        rw [Bool.and_eq_true] at hpy
        have hys : s ≤ (segment_peak signal sampling_rate (s', e')).index :=
          of_decide_eq_true hpy.1
        have hye : (segment_peak signal sampling_rate (s', e')).index < e :=
          of_decide_eq_true hpy.2
        obtain ⟨hs', he'⟩ := isMaxRun_unique hrun' hrun hyb.1 hyb.2 hys hye
        subst hs'
        subst he'
        rfl
    · intro j hsj hje
      have h1 := argminIdx_le (l := segment_values signal (s, e)) (j - s)
        (by
          rw [segment_values_length hesig]
          omega)
      rw [segment_values_getD hkb hesig, segment_values_getD (by omega) hesig] at h1
      have hj' : s + (j - s) = j := by omega
      rw [hj'] at h1
      rw [segment_peak_index_def]
      exact h1
    · intro j hsj hjidx
      rw [segment_peak_index_def] at hjidx
      simp only at hjidx
      have hjk : j - s < argminIdx (segment_values signal (s, e)) := by omega
      have h1 := argminIdx_first (l := segment_values signal (s, e)) (j - s) hjk
      rw [segment_values_getD hkb hesig, segment_values_getD (by omega) hesig] at h1
      have hj' : s + (j - s) = j := by omega
      rw [hj'] at h1
      rw [segment_peak_index_def]
      exact h1
    · rw [segment_peak_amp_def, segment_peak_index_def]
      exact segment_values_getD hkb hesig
  · intro q hq
    rw [hraw, hmap] at hq
    rcases List.mem_map.mp hq with ⟨⟨s', e'⟩, hse'mem, rfl⟩
    have hrun' := mem_segments_isMaxRun hse'mem
    simp only at hrun'
    have hyb := @segment_peak_index_bounds signal sampling_rate _ _ hrun'.1
      (by
        have := hrun'.2.1
        omega)
    exact ⟨s', e', hrun', hyb.1, hyb.2⟩

/-! ## Branch structure of the detector and orchestrator -/

lemma detect_cases (signal : List ℚ) (t sr : ℚ) :
    detect_spikes_in_signal signal t sr = ([], []) ∨
    detect_spikes_in_signal signal t sr =
      ((detected_spikes_of_mask signal sr (supra_threshold_mask signal t)).mergeSort spike_le,
        filter_spikes_iterative_refractory
          ((detected_spikes_of_mask signal sr (supra_threshold_mask signal t)).mergeSort
            spike_le) ref_before_s ref_after_s) := by
  unfold detect_spikes_in_signal
  split_ifs with h1 h2 h3
  · exact Or.inl rfl
  · exact Or.inl rfl
  · exact Or.inl rfl
  · exact Or.inr rfl

lemma detect_snd_sublist_fst (signal : List ℚ) (t sr : ℚ) :
    (detect_spikes_in_signal signal t sr).2.Sublist
      (detect_spikes_in_signal signal t sr).1 := by
  rcases detect_cases signal t sr with h | h <;> rw [h]
  exact refractory_sublist _ _ _

lemma detect_raw_waveform_none (signal : List ℚ) (t sr : ℚ) :
    ∀ sp ∈ (detect_spikes_in_signal signal t sr).1, sp.waveform = none := by
  intro sp hsp
  rcases detect_cases signal t sr with h | h <;> rw [h] at hsp
  · simp at hsp
  · have hmem : sp ∈ detected_spikes_of_mask signal sr (supra_threshold_mask signal t) :=
      (List.mergeSort_perm _ spike_le).mem_iff.mp hsp
    rw [detected_eq_map_peak sr (supra_threshold_mask_length signal t)] at hmem
    rcases List.mem_map.mp hmem with ⟨se, -, rfl⟩
    exact segment_peak_waveform_def signal sr se

lemma detect_snd_waveform_none (signal : List ℚ) (t sr : ℚ) :
    ∀ sp ∈ (detect_spikes_in_signal signal t sr).2, sp.waveform = none := by
  intro sp hsp
  exact detect_raw_waveform_none signal t sr sp
    (List.Sublist.mem hsp (detect_snd_sublist_fst signal t sr))

lemma attach_map_erase (spikes : List Spike) (wd : WaveformsData) :
    (attach_waveforms spikes wd).map erase_waveform = spikes.map erase_waveform := by
  unfold attach_waveforms
  rw [List.map_map]
  apply List.map_congr_left
  intro sp _
  by_cases h : sp.index ∈ wd.spike_indices
  · simp [h, Function.comp, erase_waveform]
  · simp [h, Function.comp, erase_waveform]

lemma map_erase_of_none {spikes : List Spike} (h : ∀ sp ∈ spikes, sp.waveform = none) :
    spikes.map erase_waveform = spikes := by
  induction spikes with
  | nil => rfl
  | cons a l ih =>
    rw [List.map_cons, ih (fun sp hsp => h sp (List.mem_cons_of_mem a hsp))]
    have ha : a.waveform = none := h a (List.mem_cons_self a l)
    unfold erase_waveform
    rw [← ha]

lemma index_inj_of_pairwise {spikes : List Spike}
    (hpw : List.Pairwise (fun a b : Spike => a.index < b.index) spikes)
    {a b : Spike} (ha : a ∈ spikes) (hb : b ∈ spikes) (h : a.index = b.index) : a = b := by
  rw [List.pairwise_iff_getElem] at hpw
  rcases List.mem_iff_getElem.mp ha with ⟨i, hi, rfl⟩
  rcases List.mem_iff_getElem.mp hb with ⟨j, hj, rfl⟩
  rcases Nat.lt_trichotomy i j with hc | hc | hc
  · have := hpw i j hi hj hc
    omega
  · subst hc
    rfl
  · have := hpw j i hj hi hc
    omega

lemma waveform_slice_length {signal : List ℚ} {sb sa idx : ℕ}
    (h1 : sb ≤ idx) (h2 : idx + sa < signal.length) :
    (waveform_slice signal sb sa idx).length = sb + sa + 1 := by
  simp only [waveform_slice, List.length_take, List.length_drop]
  omega

lemma waveform_slice_eq {signal : List ℚ} {sb sa idx : ℕ}
    (h1 : sb ≤ idx) (h2 : idx + sa < signal.length) :
    waveform_slice signal sb sa idx =
      (List.range (sb + sa + 1)).map (fun j => signal.getD (idx - sb + j) 0) := by
  apply List.ext_getElem
  · rw [waveform_slice_length h1 h2, List.length_map, List.length_range]
  · intro n hn1 hn2
    rw [List.length_map, List.length_range] at hn2
    have hidx : idx - sb + n < signal.length := by omega
    unfold waveform_slice
    rw [List.getElem_take, List.getElem_drop, List.getElem_map, List.getElem_range]
    rw [List.getD_eq_getElem _ _ hidx]

lemma process_one_sample_no_signal (sampling_rate : ℚ) (threshold_of : List ℚ → ℚ)
    (sd : SampleData) (hsel : select_signal sd = none) :
    process_one_sample sampling_rate threshold_of sd =
      { spikes_raw_detected := []
      , spikes_refractory_filtered := []
      , spike_waveform_metadata := none
      , warned := false } := by
  unfold process_one_sample
  rw [hsel]

lemma process_one_sample_bad_rate (sampling_rate : ℚ) (threshold_of : List ℚ → ℚ)
    (sd : SampleData) (signal : List ℚ) (hsel : select_signal sd = some signal)
    (hsr : sampling_rate ≤ 0) :
    process_one_sample sampling_rate threshold_of sd =
      { spikes_raw_detected := []
      , spikes_refractory_filtered := []
      , spike_waveform_metadata := none
      , warned := true } := by
  unfold process_one_sample
  simp only [hsel]
  rw [if_pos hsr]

lemma process_one_sample_main (sampling_rate : ℚ) (threshold_of : List ℚ → ℚ)
    (sd : SampleData) (signal : List ℚ) (hsel : select_signal sd = some signal)
    (hsr : ¬ sampling_rate ≤ 0) :
    process_one_sample sampling_rate threshold_of sd =
      { spikes_raw_detected :=
          (detect_spikes_in_signal signal (threshold_of signal) sampling_rate).1
      , spikes_refractory_filtered :=
          attach_waveforms
            (detect_spikes_in_signal signal (threshold_of signal) sampling_rate).2
            (extract_spike_waveforms signal
              (detect_spikes_in_signal signal (threshold_of signal) sampling_rate).2
              2 3 sampling_rate)
      , spike_waveform_metadata :=
          some (extract_spike_waveforms signal
            (detect_spikes_in_signal signal (threshold_of signal) sampling_rate).2
            2 3 sampling_rate).time_axis
      , warned := false } := by
  unfold process_one_sample
  simp only [hsel]
  rw [if_neg hsr]

/-- **C2.**  Soundness of the refractory filter: any two accepted events are
outside each other's inclusive exclusion window (the later one never lies in
`[t - before_s, t + after_s]` of the earlier one); a candidate appended after a
prefix is accepted iff its time lies in no window of an event accepted from
that prefix, and rejected candidates contribute no window (rejection leaves
the accepted list unchanged). -/
theorem C2_refractory_windows (before_s after_s : ℚ) (spikes : List Spike) :
    List.Pairwise
      (fun x y => ¬ (x.time_s - before_s ≤ y.time_s ∧ y.time_s ≤ x.time_s + after_s))
      (filter_spikes_iterative_refractory spikes before_s after_s) ∧
    (∀ pre sp,
      (filter_spikes_iterative_refractory (pre ++ [sp]) before_s after_s =
          filter_spikes_iterative_refractory pre before_s after_s ++ [sp] ↔
        ∀ q ∈ filter_spikes_iterative_refractory pre before_s after_s,
          ¬ (q.time_s - before_s ≤ sp.time_s ∧ sp.time_s ≤ q.time_s + after_s))) ∧
    (∀ pre sp,
      (∃ q ∈ filter_spikes_iterative_refractory pre before_s after_s,
        q.time_s - before_s ≤ sp.time_s ∧ sp.time_s ≤ q.time_s + after_s) →
      filter_spikes_iterative_refractory (pre ++ [sp]) before_s after_s =
        filter_spikes_iterative_refractory pre before_s after_s) :=
  ⟨refractory_pairwise before_s after_s spikes,
    fun pre sp => refractory_accept_iff before_s after_s pre sp,
    fun pre sp h => refractory_reject before_s after_s pre sp h⟩

/-- **C2 witness.**  With `before_s = 1`, `after_s = 2`, an accepted event at
time `0` shadows a candidate at time `1`: the candidate is rejected and the
accepted list is unchanged. -/
theorem C2_refractory_windows_witness :
    (∃ q ∈ filter_spikes_iterative_refractory [⟨0, -5, 0, none⟩] 1 2,
      q.time_s - 1 ≤ (Spike.mk 1 (-6) 1 none).time_s ∧
        (Spike.mk 1 (-6) 1 none).time_s ≤ q.time_s + 2) ∧
    filter_spikes_iterative_refractory ([⟨0, -5, 0, none⟩] ++ [⟨1, -6, 1, none⟩]) 1 2 =
      filter_spikes_iterative_refractory [⟨0, -5, 0, none⟩] 1 2 := by
  have hf : filter_spikes_iterative_refractory [⟨0, -5, 0, none⟩] 1 2 =
      [⟨0, -5, 0, none⟩] := rfl
  have hq : ∃ q ∈ filter_spikes_iterative_refractory [⟨0, -5, 0, none⟩] 1 2,
      q.time_s - 1 ≤ (Spike.mk 1 (-6) 1 none).time_s ∧
        (Spike.mk 1 (-6) 1 none).time_s ≤ q.time_s + 2 := by
    refine ⟨⟨0, -5, 0, none⟩, ?_, ?_, ?_⟩
    · rw [hf]
      exact List.mem_singleton.mpr rfl
    · norm_num
    · norm_num
  exact ⟨hq, (C2_refractory_windows 1 2 []).2.2 [⟨0, -5, 0, none⟩] ⟨1, -6, 1, none⟩ hq⟩

/-- **C3.**  The refractory filter returns an order-preserving subsequence of
its (arbitrary) input list, and in a full `process_one_sample` pass every
refractory-filtered event — with any attached waveform stripped — appears
unmodified, in order, as a subsequence of the raw-detected list. -/
theorem C3_refractory_subsequence (before_s after_s : ℚ) (spikes : List Spike)
    (sampling_rate : ℚ) (threshold_of : List ℚ → ℚ) (sd : SampleData) :
    (filter_spikes_iterative_refractory spikes before_s after_s).Sublist spikes ∧
    ((process_one_sample sampling_rate threshold_of sd).spikes_refractory_filtered.map
        erase_waveform).Sublist
      (process_one_sample sampling_rate threshold_of sd).spikes_raw_detected := by
  refine ⟨refractory_sublist before_s after_s spikes, ?_⟩
  cases hsel : select_signal sd with
  | none =>
    rw [process_one_sample_no_signal sampling_rate threshold_of sd hsel]
    exact List.Sublist.refl _
  | some signal =>
    by_cases hsr : sampling_rate ≤ 0
    · rw [process_one_sample_bad_rate sampling_rate threshold_of sd signal hsel hsr]
      exact List.Sublist.refl _
    · rw [process_one_sample_main sampling_rate threshold_of sd signal hsel hsr]
      simp only
      rw [attach_map_erase, map_erase_of_none
        (detect_snd_waveform_none signal (threshold_of signal) sampling_rate)]
      exact detect_snd_sublist_fst signal (threshold_of signal) sampling_rate

/-- **C4 (counterexample).**  The source detector has no polarity parameter and
its mask is not the absolute-value mask: for `signal = [0, 0, 0, 2]` the RMS is
exactly `1`, so with `rms_multiplier = 1` the source's threshold value is `-1`
while the spec's absolute mask uses `|x| > 1`.  The absolute mask flags the
positive excursion at index 3, yet `detect_spikes_in_signal` returns no events,
and the two masks differ. -/
theorem C4_no_absolute_polarity_counterexample :
    detect_spikes_in_signal [0, 0, 0, 2] (-1) 1000 = ([], []) ∧
    (absolute_mask_spec [0, 0, 0, 2] 1).any (fun b => b) = true ∧
    supra_threshold_mask [0, 0, 0, 2] (-1) ≠ absolute_mask_spec [0, 0, 0, 2] 1 := by
  have hmask : supra_threshold_mask [0, 0, 0, 2] (-1) = [false, false, false, false] := by
    unfold supra_threshold_mask
    norm_num
  have habs : absolute_mask_spec [0, 0, 0, 2] 1 = [false, false, false, true] := by
    unfold absolute_mask_spec
    norm_num
  refine ⟨?_, by rw [habs]; rfl, by rw [hmask, habs]; simp⟩
  unfold detect_spikes_in_signal
  rw [if_neg (by norm_num)]
  rw [if_neg (by unfold mean_square; norm_num)]
  rw [if_pos (by rw [hmask]; rfl)]

/-- **C4 (amended).**  The detector has no polarity parameter: its crossing
mask is always the negative-only mask `mask[i] = signal[i] < threshold_value`,
and consequently every candidate it emits has (signed) amplitude strictly below
the threshold value.  The absolute-value policy
`mask[i] = |signal[i]| > threshold` of the spec is not available in
`detect_spikes_in_signal`. -/
theorem C4_negative_only_polarity (signal : List ℚ) (threshold_value sampling_rate : ℚ) :
    (∀ i, i < signal.length →
      (supra_threshold_mask signal threshold_value).getD i false =
        decide (signal.getD i 0 < threshold_value)) ∧
    (∀ sp ∈ (detect_spikes_in_signal signal threshold_value sampling_rate).1,
      sp.amplitude_mv < threshold_value) := by
  refine ⟨fun i hi => supra_threshold_mask_getD signal threshold_value hi, ?_⟩
  intro sp hsp
  rcases detect_cases signal threshold_value sampling_rate with h | h <;> rw [h] at hsp
  · simp at hsp
  · have hlen := supra_threshold_mask_length signal threshold_value
    have hmem : sp ∈ detected_spikes_of_mask signal sampling_rate
        (supra_threshold_mask signal threshold_value) :=
      (List.mergeSort_perm _ spike_le).mem_iff.mp hsp
    rw [detected_eq_map_peak sampling_rate hlen] at hmem
    rcases List.mem_map.mp hmem with ⟨⟨s, e⟩, hse, rfl⟩
    have hrun := mem_segments_isMaxRun hse
    simp only at hrun
    have hesig : e ≤ signal.length := by
      have := hrun.2.1
      omega
    have hvne : segment_values signal (s, e) ≠ [] := by
      intro h0
      have hl := segment_values_length (s := s) hesig
      rw [h0] at hl
      simp at hl
      have := hrun.1
      omega
    have hkb : argminIdx (segment_values signal (s, e)) < e - s := by
      have h1 := argminIdx_lt hvne
      rw [segment_values_length hesig] at h1
      exact h1
    rw [segment_peak_amp_def, segment_values_getD hkb hesig]
    have hidxe : s + argminIdx (segment_values signal (s, e)) < e := by omega
    have hmt : (supra_threshold_mask signal threshold_value).getD
        (s + argminIdx (segment_values signal (s, e))) false = true :=
      hrun.2.2.1 _ hidxe (by omega)
    rw [supra_threshold_mask_getD signal threshold_value (by omega)] at hmt
    exact of_decide_eq_true hmt

/-- **C4 witness.**  The amended theorem applied at `signal = [0, -2]`,
`threshold_value = -1`: position 0 of the mask is the negative-only comparison. -/
theorem C4_negative_only_polarity_witness :
    0 < ([0, -2] : List ℚ).length ∧
      (supra_threshold_mask [0, -2] (-1)).getD 0 false =
        decide ((([0, -2] : List ℚ).getD 0 0) < -1) :=
  ⟨by decide, (C4_negative_only_polarity [0, -2] (-1) 1000).1 0 (by decide)⟩

/-- **C7.**  For every signal and positive sampling rate, the raw candidate
list returned by the detector is sorted ascending by `time_s`, and every
emitted event satisfies `time_s = sample_index / sampling_rate`. -/
theorem C7_detect_sorted (signal : List ℚ) (threshold_value sampling_rate : ℚ)
    (hsr : 0 < sampling_rate) :
    List.Pairwise (fun a b : Spike => a.time_s ≤ b.time_s)
      (detect_spikes_in_signal signal threshold_value sampling_rate).1 ∧
    ∀ sp ∈ (detect_spikes_in_signal signal threshold_value sampling_rate).1,
      sp.time_s = (sp.index : ℚ) / sampling_rate := by
  rcases detect_cases signal threshold_value sampling_rate with h | h <;> rw [h]
  · refine ⟨List.Pairwise.nil, ?_⟩
    intro sp hsp
    simp at hsp
  · constructor
    · have htrans : ∀ a b c : Spike, spike_le a b = true → spike_le b c = true →
          spike_le a c = true := by
        intro a b c hab hbc
        unfold spike_le at hab hbc ⊢
        rw [decide_eq_true_iff] at hab hbc ⊢
        exact le_trans hab hbc
      have htotal : ∀ a b : Spike, (spike_le a b || spike_le b a) = true := by
        intro a b
        unfold spike_le
        rcases le_total a.time_s b.time_s with h1 | h1
        · rw [decide_eq_true h1]
          rfl
        · rw [decide_eq_true h1]
          simp
      have hp := List.sorted_mergeSort htrans htotal
        (detected_spikes_of_mask signal sampling_rate
          (supra_threshold_mask signal threshold_value))
      apply hp.imp
      intro a b hab
      exact of_decide_eq_true hab
    · intro sp hsp
      have hmem : sp ∈ detected_spikes_of_mask signal sampling_rate
          (supra_threshold_mask signal threshold_value) :=
        (List.mergeSort_perm _ spike_le).mem_iff.mp hsp
      exact detected_time_eq (supra_threshold_mask_length signal threshold_value) hmem

/-- **C7 witness.**  Applied at the one-spike signal `[0, -2]` with sampling
rate `1000`. -/
theorem C7_detect_sorted_witness :
    0 < (1000 : ℚ) ∧
      List.Pairwise (fun a b : Spike => a.time_s ≤ b.time_s)
        (detect_spikes_in_signal [0, -2] (-1) 1000).1 :=
  ⟨by norm_num, (C7_detect_sorted [0, -2] (-1) 1000 (by norm_num)).1⟩

/-- **C8.**  A signal has RMS zero exactly when it is empty or all-zero (over
the reals, `sqrt(mean(signal²)) = 0 ↔ mean(signal²) = 0`), and for every such
signal the detector returns the pair of empty event lists — the degenerate
signal is "no events", not an error. -/
theorem C8_rms_zero_empty_output (signal : List ℚ) (threshold_value sampling_rate : ℚ) :
    (mean_square signal = 0 ↔ (signal = [] ∨ ∀ x ∈ signal, x = 0)) ∧
    (mean_square signal = 0 →
      detect_spikes_in_signal signal threshold_value sampling_rate = ([], [])) := by
  constructor
  · rw [mean_square_eq_zero_iff]
    constructor
    · exact fun h => Or.inr h
    · intro h
      rcases h with h | h
      · subst h
        intro x hx
        simp at hx
      · exact h
  · intro h
    unfold detect_spikes_in_signal
    by_cases h0 : signal.length = 0
    · rw [if_pos h0]
    · rw [if_neg h0, if_pos h]

/-- **C8 witness.**  Applied at the all-zero signal `[0, 0]`. -/
theorem C8_rms_zero_empty_output_witness :
    mean_square [0, 0] = 0 ∧
      detect_spikes_in_signal [0, 0] (-4) 1000 = ([], []) := by
  have hms : mean_square [0, 0] = 0 :=
    (C8_rms_zero_empty_output [0, 0] (-4) 1000).1.mpr (Or.inr (by simp))
  exact ⟨hms, (C8_rms_zero_empty_output [0, 0] (-4) 1000).2 hms⟩

lemma spike_indices_nodup {spikes : List Spike}
    (hpw : List.Pairwise (fun a b : Spike => a.index < b.index) spikes)
    (signal : List ℚ) (before_ms after_ms sampling_rate : ℚ) :
    (extract_spike_waveforms signal spikes before_ms after_ms sampling_rate).spike_indices.Nodup := by
  have heq : (extract_spike_waveforms signal spikes before_ms after_ms
      sampling_rate).spike_indices =
      (spikes.filter (fun sp => waveform_in_bounds signal
        (samples_count before_ms sampling_rate) (samples_count after_ms sampling_rate)
        sp.index)).map (fun sp => sp.index) := rfl
  rw [heq]
  have h2 := hpw.filter (fun sp => waveform_in_bounds signal
    (samples_count before_ms sampling_rate) (samples_count after_ms sampling_rate) sp.index)
  unfold List.Nodup
  rw [List.pairwise_map]
  exact h2.imp (fun hab => by omega)

lemma detect_raw_pairwise_index (signal : List ℚ) (threshold_value sampling_rate : ℚ)
    (hsr : 0 < sampling_rate) :
    List.Pairwise (fun a b : Spike => a.index < b.index)
      (detect_spikes_in_signal signal threshold_value sampling_rate).1 := by
  rcases detect_cases signal threshold_value sampling_rate with h | h <;> rw [h]
  · exact List.Pairwise.nil
  · have hlen := supra_threshold_mask_length signal threshold_value
    have hpw := @detected_pairwise_index signal sampling_rate _ hlen
    rw [← raw_eq_detected hsr hlen] at hpw
    exact hpw

/-- **C10.**  The candidate events returned by the detector have strictly
increasing (hence pairwise distinct) sample indices; the refractory-filtered
subset inherits this, so the kept-indices list produced by the waveform
extractor on the filtered events has no duplicates and the orchestrator's
index-based waveform re-association is unambiguous. -/
theorem C10_distinct_indices (signal : List ℚ) (threshold_value sampling_rate : ℚ)
    (hsr : 0 < sampling_rate) (before_ms after_ms : ℚ) :
    List.Pairwise (fun a b : Spike => a.index < b.index)
      (detect_spikes_in_signal signal threshold_value sampling_rate).1 ∧
    List.Pairwise (fun a b : Spike => a.index < b.index)
      (detect_spikes_in_signal signal threshold_value sampling_rate).2 ∧
    (extract_spike_waveforms signal
      (detect_spikes_in_signal signal threshold_value sampling_rate).2
      before_ms after_ms sampling_rate).spike_indices.Nodup := by
  have h1 := detect_raw_pairwise_index signal threshold_value sampling_rate hsr
  have h2 := List.Pairwise.sublist (detect_snd_sublist_fst signal threshold_value sampling_rate) h1
  exact ⟨h1, h2, spike_indices_nodup h2 signal before_ms after_ms sampling_rate⟩

/-- **C10 witness.**  Applied at the one-spike signal `[0, -2]` with sampling
rate `1000`. -/
theorem C10_distinct_indices_witness :
    0 < (1000 : ℚ) ∧
      (extract_spike_waveforms [0, -2]
        (detect_spikes_in_signal [0, -2] (-1) 1000).2 2 3 1000).spike_indices.Nodup :=
  ⟨by norm_num, (C10_distinct_indices [0, -2] (-1) 1000 (by norm_num) 2 3).2.2⟩

/-- **C1 witness.**  For `signal = [0, -2, 0, 0]` and threshold `-1`, the mask
is `[false, true, false, false]` and `[1, 2)` is a maximal run; the theorem
yields the unique candidate of that run. -/
theorem C1_detect_one_candidate_per_run_witness :
    0 < (1000 : ℚ) ∧ (-1 : ℚ) < 0 ∧
      isMaxRun (supra_threshold_mask [0, -2, 0, 0] (-1)) 1 2 ∧
      (∃ sp : Spike,
        (detect_spikes_in_signal [0, -2, 0, 0] (-1) 1000).1.filter
            (fun q => decide (1 ≤ q.index) && decide (q.index < 2)) = [sp] ∧
        1 ≤ sp.index ∧ sp.index < 2) := by
  have hm : supra_threshold_mask [0, -2, 0, 0] (-1) = [false, true, false, false] := by
    unfold supra_threshold_mask
    norm_num
  have hrun : isMaxRun (supra_threshold_mask [0, -2, 0, 0] (-1)) 1 2 := by
    rw [hm]
    decide
  refine ⟨by norm_num, by norm_num, hrun, ?_⟩
  obtain ⟨⟨sp, h1, h2, h3, -, -, -, -⟩, -⟩ :=
    C1_detect_one_candidate_per_run [0, -2, 0, 0] (-1) 1000 (by norm_num) (by norm_num)
      1 2 hrun
  exact ⟨sp, h1, h2, h3⟩

/-- **C5.**  A validated event's index enters the extractor's kept-indices
list exactly when the full window is in bounds
(`samples_before ≤ idx` and `idx + samples_after < len(signal)`); every
emitted waveform is the slice
`signal[idx - samples_before : idx + samples_after + 1]` read entirely from
in-range positions; and an event failing the check passes through the
orchestrator's waveform-attachment step unchanged (so it stays in the
refractory-filtered list with no waveform attached). -/
theorem C5_waveform_bounds (signal : List ℚ) (spikes : List Spike)
    (before_ms after_ms sampling_rate : ℚ)
    (hpw : List.Pairwise (fun a b : Spike => a.index < b.index) spikes) :
    (∀ sp ∈ spikes,
      (sp.index ∈ (extract_spike_waveforms signal spikes before_ms after_ms
          sampling_rate).spike_indices ↔
        (samples_count before_ms sampling_rate ≤ sp.index ∧
          sp.index + samples_count after_ms sampling_rate < signal.length))) ∧
    ((extract_spike_waveforms signal spikes before_ms after_ms sampling_rate).waveforms =
      (spikes.filter (fun sp => waveform_in_bounds signal
          (samples_count before_ms sampling_rate) (samples_count after_ms sampling_rate)
          sp.index)).map
        (fun sp => (List.range (samples_count before_ms sampling_rate +
            samples_count after_ms sampling_rate + 1)).map
          (fun j => signal.getD
            (sp.index - samples_count before_ms sampling_rate + j) 0))) ∧
    (∀ sp ∈ spikes, waveform_in_bounds signal (samples_count before_ms sampling_rate)
        (samples_count after_ms sampling_rate) sp.index = true →
      ∀ j, j ≤ samples_count before_ms sampling_rate +
          samples_count after_ms sampling_rate →
        sp.index - samples_count before_ms sampling_rate + j < signal.length) ∧
    (∀ d : Spike, ∀ i, i < spikes.length →
      waveform_in_bounds signal (samples_count before_ms sampling_rate)
        (samples_count after_ms sampling_rate) (spikes.getD i d).index = false →
      (attach_waveforms spikes (extract_spike_waveforms signal spikes before_ms after_ms
          sampling_rate)).getD i d = spikes.getD i d) := by
  have hind : (extract_spike_waveforms signal spikes before_ms after_ms
      sampling_rate).spike_indices =
      (spikes.filter (fun sp => waveform_in_bounds signal
        (samples_count before_ms sampling_rate) (samples_count after_ms sampling_rate)
        sp.index)).map (fun sp => sp.index) := rfl
  have hbounds : ∀ sp : Spike, waveform_in_bounds signal
      (samples_count before_ms sampling_rate) (samples_count after_ms sampling_rate)
      sp.index = true →
      samples_count before_ms sampling_rate ≤ sp.index ∧
        sp.index + samples_count after_ms sampling_rate < signal.length := by
    intro sp hc
    unfold waveform_in_bounds at hc
    rw [Bool.and_eq_true] at hc
    exact ⟨of_decide_eq_true hc.1, of_decide_eq_true hc.2⟩
  refine ⟨?_, ?_, ?_, ?_⟩
  · intro sp hsp
    constructor
    · intro hmem
      rw [hind] at hmem
      rcases List.mem_map.mp hmem with ⟨q, hq, hqi⟩
      rw [List.mem_filter] at hq
      have hqsp : q = sp := index_inj_of_pairwise hpw hq.1 hsp hqi
      subst hqsp
      exact hbounds q hq.2
    · intro hc
      rw [hind]
      apply List.mem_map_of_mem
      rw [List.mem_filter]
      refine ⟨hsp, ?_⟩
      unfold waveform_in_bounds
      rw [Bool.and_eq_true]
      exact ⟨decide_eq_true hc.1, decide_eq_true hc.2⟩
  · have hwv : (extract_spike_waveforms signal spikes before_ms after_ms
        sampling_rate).waveforms =
        (spikes.filter (fun sp => waveform_in_bounds signal
          (samples_count before_ms sampling_rate) (samples_count after_ms sampling_rate)
          sp.index)).map (fun sp => waveform_slice signal
            (samples_count before_ms sampling_rate)
            (samples_count after_ms sampling_rate) sp.index) := rfl
    rw [hwv]
    apply List.map_congr_left
    intro sp hsp
    rw [List.mem_filter] at hsp
    obtain ⟨h1, h2⟩ := hbounds sp hsp.2
    exact waveform_slice_eq h1 h2
  · intro sp _ hc j hj
    obtain ⟨h1, h2⟩ := hbounds sp hc
    omega
  · intro d i hi hc
    have hi' : i < (attach_waveforms spikes (extract_spike_waveforms signal spikes
        before_ms after_ms sampling_rate)).length := by
      unfold attach_waveforms
      rw [List.length_map]
      exact hi
    rw [List.getD_eq_getElem _ _ hi', List.getD_eq_getElem _ _ hi]
    unfold attach_waveforms
    rw [List.getElem_map]
    have hnotmem : spikes[i].index ∉ (extract_spike_waveforms signal spikes before_ms
        after_ms sampling_rate).spike_indices := by
      intro hmem
      rw [hind] at hmem
      rcases List.mem_map.mp hmem with ⟨q, hq, hqi⟩
      rw [List.mem_filter] at hq
      have hqsp : q = spikes[i] :=
        index_inj_of_pairwise hpw hq.1 (List.getElem_mem hi) hqi
      subst hqsp
      rw [List.getD_eq_getElem _ _ hi] at hc
      rw [hc] at hq
      exact Bool.false_ne_true hq.2
    rw [if_neg hnotmem]

/-- **C5 witness.**  A spike at index 4 in an 8-sample signal with a
`2 ms`/`3 ms` window at 1000 Hz (`samples_before = 2`, `samples_after = 3`)
is kept exactly when the bound check passes. -/
theorem C5_waveform_bounds_witness :
    List.Pairwise (fun a b : Spike => a.index < b.index) [⟨0, 0, 4, none⟩] ∧
      ((Spike.mk 0 0 4 none).index ∈
          (extract_spike_waveforms [1, 2, 3, 4, 5, 6, 7, 8] [⟨0, 0, 4, none⟩] 2 3
            1000).spike_indices ↔
        (samples_count 2 1000 ≤ (Spike.mk 0 0 4 none).index ∧
          (Spike.mk 0 0 4 none).index + samples_count 3 1000 <
            ([1, 2, 3, 4, 5, 6, 7, 8] : List ℚ).length)) := by
  have hpw : List.Pairwise (fun a b : Spike => a.index < b.index) [⟨0, 0, 4, none⟩] :=
    List.pairwise_singleton _ _
  exact ⟨hpw, (C5_waveform_bounds [1, 2, 3, 4, 5, 6, 7, 8] [⟨0, 0, 4, none⟩] 2 3 1000
    hpw).1 ⟨0, 0, 4, none⟩ (List.mem_singleton.mpr rfl)⟩

/-- **C6.**  With `samples_before = ⌊before_ms·rate/1000⌋` and
`samples_after = ⌊after_ms·rate/1000⌋` (the embedded `samples_count` equals
the floor for the nonnegative parameters assumed here), every waveform
emitted by the extractor has exactly `samples_before + samples_after + 1`
samples, the shared time axis has the same length, and the time-axis entry at
position `samples_before` (the peak position) is `0`. -/
theorem C6_waveform_length (signal : List ℚ) (spikes : List Spike)
    (before_ms after_ms sampling_rate : ℚ) (hsr : 0 < sampling_rate)
    (hb : 0 ≤ before_ms) (ha : 0 ≤ after_ms) :
    ((samples_count before_ms sampling_rate : ℤ) = ⌊before_ms * sampling_rate / 1000⌋ ∧
      (samples_count after_ms sampling_rate : ℤ) = ⌊after_ms * sampling_rate / 1000⌋) ∧
    (∀ wf ∈ (extract_spike_waveforms signal spikes before_ms after_ms
        sampling_rate).waveforms,
      wf.length = samples_count before_ms sampling_rate +
        samples_count after_ms sampling_rate + 1) ∧
    (extract_spike_waveforms signal spikes before_ms after_ms
        sampling_rate).time_axis.length =
      samples_count before_ms sampling_rate + samples_count after_ms sampling_rate + 1 ∧
    (extract_spike_waveforms signal spikes before_ms after_ms
        sampling_rate).time_axis.getD (samples_count before_ms sampling_rate) 0 = 0 := by
  have hfloor : ∀ ms : ℚ, 0 ≤ ms →
      (samples_count ms sampling_rate : ℤ) = ⌊ms * sampling_rate / 1000⌋ := by
    intro ms hms
    unfold samples_count
    apply Int.toNat_of_nonneg
    apply Int.floor_nonneg.mpr
    apply div_nonneg (mul_nonneg hms (le_of_lt hsr))
    norm_num
  have hax : (extract_spike_waveforms signal spikes before_ms after_ms
      sampling_rate).time_axis =
      (List.range (samples_count before_ms sampling_rate +
        samples_count after_ms sampling_rate + 1)).map
        (fun (j : ℕ) => ((j : ℚ) - (samples_count before_ms sampling_rate : ℚ)) * 1000 /
          sampling_rate) := rfl
  refine ⟨⟨hfloor before_ms hb, hfloor after_ms ha⟩, ?_, ?_, ?_⟩
  · intro wf hwf
    have hwv : (extract_spike_waveforms signal spikes before_ms after_ms
        sampling_rate).waveforms =
        (spikes.filter (fun sp => waveform_in_bounds signal
          (samples_count before_ms sampling_rate) (samples_count after_ms sampling_rate)
          sp.index)).map (fun sp => waveform_slice signal
            (samples_count before_ms sampling_rate)
            (samples_count after_ms sampling_rate) sp.index) := rfl
    rw [hwv] at hwf
    rcases List.mem_map.mp hwf with ⟨sp, hsp, rfl⟩
    rw [List.mem_filter] at hsp
    have hc := hsp.2
    unfold waveform_in_bounds at hc
    rw [Bool.and_eq_true] at hc
    exact waveform_slice_length (of_decide_eq_true hc.1) (of_decide_eq_true hc.2)
  · rw [hax, List.length_map, List.length_range]
  · rw [hax]
    have hlt : samples_count before_ms sampling_rate <
        (List.range (samples_count before_ms sampling_rate +
          samples_count after_ms sampling_rate + 1)).length := by
      rw [List.length_range]
      omega
    have hlt' : samples_count before_ms sampling_rate <
        ((List.range (samples_count before_ms sampling_rate +
          samples_count after_ms sampling_rate + 1)).map
          (fun (j : ℕ) => ((j : ℚ) - (samples_count before_ms sampling_rate : ℚ)) * 1000 /
            sampling_rate)).length := by
      rw [List.length_map]
      exact hlt
    rw [List.getD_eq_getElem _ _ hlt', List.getElem_map, List.getElem_range]
    rw [sub_self, zero_mul, zero_div]

/-- **C6 witness.**  With `before_ms = 2`, `after_ms = 3` at 1000 Hz the
time-axis entry at position `samples_before` is `0`. -/
theorem C6_waveform_length_witness :
    0 < (1000 : ℚ) ∧ (0 : ℚ) ≤ 2 ∧ (0 : ℚ) ≤ 3 ∧
      (extract_spike_waveforms [] [] 2 3 1000).time_axis.getD
        (samples_count 2 1000) 0 = 0 :=
  ⟨by norm_num, by norm_num, by norm_num,
    (C6_waveform_length [] [] 2 3 1000 (by norm_num) (by norm_num) (by norm_num)).2.2.2⟩

/-- **C9 (counterexample).**  A trace whose selected signal is empty (here
`filtered_signal = some []` and no `signal_mv`) receives empty event lists but
**no** warning: the orchestrator's no-usable-signal branch (lines 227–230 of
`src/spike_detector.py`) stores the empty results silently, while the claim
asserts a logged warning for the empty-signal case as well. -/
theorem C9_no_warning_on_empty_signal :
    process_one_sample 1000 (fun _ => -4) ⟨some [], none⟩ =
      ⟨[], [], none, false⟩ := rfl

/-- **C9 (amended).**  A trace with a usable signal but a non-positive
sampling rate receives empty event lists **and** a warning; a trace with no
usable (present and non-empty) signal receives empty event lists, a null
waveform-metadata entry, and **no** warning; and in both cases processing
continues: `process_all_samples` produces exactly one result per sample, each
computed independently by `process_one_sample`. -/
theorem C9_degenerate_trace_handling (sampling_rate : ℚ) (threshold_of : List ℚ → ℚ)
    (samples : List (String × SampleData)) :
    (∀ sd : SampleData, ∀ signal : List ℚ, select_signal sd = some signal →
      sampling_rate ≤ 0 →
      process_one_sample sampling_rate threshold_of sd = ⟨[], [], none, true⟩) ∧
    (∀ sd : SampleData, select_signal sd = none →
      process_one_sample sampling_rate threshold_of sd = ⟨[], [], none, false⟩) ∧
    (process_all_samples sampling_rate threshold_of samples).length = samples.length ∧
    (∀ d : String × SampleData, ∀ d' : String × SampleResult, ∀ i, i < samples.length →
      (process_all_samples sampling_rate threshold_of samples).getD i d' =
        ((samples.getD i d).1,
          process_one_sample sampling_rate threshold_of (samples.getD i d).2)) := by
  refine ⟨?_, ?_, ?_, ?_⟩
  · intro sd signal hsel hsr
    exact process_one_sample_bad_rate sampling_rate threshold_of sd signal hsel hsr
  · intro sd hsel
    exact process_one_sample_no_signal sampling_rate threshold_of sd hsel
  · unfold process_all_samples
    rw [List.length_map]
  · intro d d' i hi
    have hi' : i < (process_all_samples sampling_rate threshold_of samples).length := by
      unfold process_all_samples
      rw [List.length_map]
      exact hi
    rw [List.getD_eq_getElem _ _ hi', List.getD_eq_getElem _ _ hi]
    unfold process_all_samples
    rw [List.getElem_map]

/-- **C9 witness.**  A trace with signal `[1, 2]` and sampling rate `0` gets
empty lists and the warning flag. -/
theorem C9_degenerate_trace_handling_witness :
    select_signal ⟨some [1, 2], none⟩ = some [1, 2] ∧ (0 : ℚ) ≤ 0 ∧
      process_one_sample 0 (fun _ => -4) ⟨some [1, 2], none⟩ = ⟨[], [], none, true⟩ :=
  ⟨rfl, le_refl 0,
    (C9_degenerate_trace_handling 0 (fun _ => -4) []).1 ⟨some [1, 2], none⟩ [1, 2]
      rfl (le_refl 0)⟩
